import Mathlib

/-!
Verification of the technical-drawing generator of the pool-cue documentation
application.  The definitions below are a shallow embedding of the TypeScript
source: the dimension parser and scalar summaries from the shared utility
module, and the profile builder, thread-region resolver and SVG scene
generator from the shared `TechnicalDrawingSVG` component.  JavaScript strings
are modelled as `List Char`; JavaScript numbers are modelled as exact
rationals `ℚ` (the source only performs field arithmetic on parsed dimension
values, so the rational model is the exact counterpart of the double
computation).
-/

/- The Batteries rational-number operations are sealed for the elaborator;
re-opening them lets concrete dimension values be evaluated by `decide`. -/
attribute [local semireducible] Rat.mul Rat.add Rat.sub Rat.inv Rat.ofScientific

namespace PoolCue

/-- ASCII fragment of the JavaScript whitespace class used by `trim`,
`parseFloat` (leading skip) and `Number` (both-ends trim). -/
def isJsWS (c : Char) : Bool :=
  c = ' ' || c = '\t' || c = '\n' || c = '\r' || c = '\x0b' || c = '\x0c'

/-- Model of `String.prototype.trim`. -/
def jsTrim (cs : List Char) : List Char :=
  ((cs.dropWhile isJsWS).reverse.dropWhile isJsWS).reverse

/-- ASCII lower-casing of one character, as `toLowerCase` acts on the
dimension strings of this repository. -/
def lowerChar (c : Char) : Char :=
  if 'A' ≤ c ∧ c ≤ 'Z' then Char.ofNat (c.toNat + 32) else c

/-- Model of `String.prototype.toLowerCase` (ASCII fragment). -/
def jsToLower (cs : List Char) : List Char := cs.map lowerChar

/-- Value of a (most-significant-first) digit string. -/
def digitsToNat (cs : List Char) : ℕ :=
  cs.foldl (fun n c => 10 * n + (c.toNat - '0'.toNat)) 0

/-- Longest decimal-mantissa prefix `digits [. digits]` of a character list:
its rational value and the unconsumed rest; `none` when no digit is found
(the NaN case of the ECMAScript StrDecimalLiteral grammar). -/
def parseDecimal (cs : List Char) : Option (ℚ × List Char) :=
  let ip := cs.takeWhile Char.isDigit
  let r1 := cs.dropWhile Char.isDigit
  match r1 with
  | '.' :: r2 =>
    let fp := r2.takeWhile Char.isDigit
    let r3 := r2.dropWhile Char.isDigit
    if ip.isEmpty ∧ fp.isEmpty then none
    else some ((digitsToNat ip : ℚ) + (digitsToNat fp : ℚ) / 10 ^ fp.length, r3)
  | _ => if ip.isEmpty then none else some ((digitsToNat ip : ℚ), r1)

/-- Optional exponent part `e|E [+|-] digits`; consumed only when at least one
exponent digit is present, exactly as `parseFloat` backtracks on `"1e"`. -/
def parseExp (cs : List Char) : ℤ × List Char :=
  match cs with
  | c :: r1 =>
    if c = 'e' ∨ c = 'E' then
      let sr : Bool × List Char :=
        match r1 with
        | '-' :: r => (true, r)
        | '+' :: r => (false, r)
        | r => (false, r)
      let ds := sr.2.takeWhile Char.isDigit
      if ds.isEmpty then (0, cs)
      else ((if sr.1 then -(digitsToNat ds : ℤ) else (digitsToNat ds : ℤ)),
            sr.2.dropWhile Char.isDigit)
    else (0, cs)
  | [] => (0, [])

/-- `10 ^ e` for an integer exponent, kept kernel-computable. -/
def pow10 (e : ℤ) : ℚ :=
  if 0 ≤ e then ((10 : ℚ) ^ e.toNat) else 1 / ((10 : ℚ) ^ (-e).toNat)

/-- Leading sign of a numeric literal. -/
def splitSign (cs : List Char) : ℚ × List Char :=
  match cs with
  | c :: rest =>
    if c = '-' then (-1, rest) else if c = '+' then (1, rest) else (1, cs)
  | [] => (1, [])

/-- Model of the JavaScript global `parseFloat` on the decimal-literal
fragment relevant to dimension strings (`Infinity` and non-decimal literals
never arise there); `none` models NaN. -/
def jsParseFloat (cs : List Char) : Option ℚ :=
  let c1 := cs.dropWhile isJsWS
  let s1 := splitSign c1
  match parseDecimal s1.2 with
  | none => none
  | some (m, r) =>
    let e := (parseExp r).1
    some (s1.1 * m * pow10 e)

/-- Model of the JavaScript `Number` conversion of a string (decimal-literal
fragment): trims, maps the empty string to `0`, and demands that the whole
remainder is a single numeric literal; `none` models NaN. -/
def jsNumber (cs : List Char) : Option ℚ :=
  let t := jsTrim cs
  if t.isEmpty then some 0
  else
    let s1 := splitSign t
    match parseDecimal s1.2 with
    | none => none
    | some (m, r) =>
      match parseExp r with
      | (e, []) => some (s1.1 * m * pow10 e)
      | _ => none

/-- Model of `String.prototype.split` with a one-character separator. -/
def splitOnChar (sep : Char) : List Char → List (List Char)
  | [] => [[]]
  | c :: cs =>
    if c = sep then [] :: splitOnChar sep cs
    else
      match splitOnChar sep cs with
      | h :: t => (c :: h) :: t
      | [] => [[c]]

/-- Does the two-character pattern `a b` occur in the list?  Models
`String.prototype.includes` for the `"mm"` / `"cm"` suffix checks. -/
def hasSub2 (a b : Char) : List Char → Bool
  | x :: y :: rest => (x = a && y = b) || hasSub2 a b (y :: rest)
  | _ => false

/-- Remove every (left-to-right, non-overlapping) occurrence of the
two-character pattern `a b`; models `replace(/mm/g, '')`. -/
def removeSub2 (a b : Char) : List Char → List Char
  | x :: y :: rest =>
    if x = a ∧ y = b then removeSub2 a b rest else x :: removeSub2 a b (y :: rest)
  | l => l

/-- `parseFloat` with the NaN-to-zero degradation of `parseValue`. -/
def parseFloatOrZero (cs : List Char) : ℚ := (jsParseFloat cs).getD 0

/-- String case of `parseValue` (utils): fraction `a/b` via `Number` on the
split halves when both parse and the denominator is non-zero, otherwise the
`parseFloat` fallback on the whole string, with NaN degrading to `0`. -/
def parseValueChars (cs : List Char) : ℚ :=
  if cs.contains '/' then
    match splitOnChar '/' cs with
    | a :: b :: _ =>
      match jsNumber a, jsNumber b with
      | some n, some d => if d ≠ 0 then n / d else parseFloatOrZero cs
      | _, _ => parseFloatOrZero cs
    | _ => parseFloatOrZero cs
  else parseFloatOrZero cs

/-- The `string | number | unknown` input domain of the parsing utilities. -/
inductive JsVal where
  | num (q : ℚ)
  | str (s : String)
  | undef
deriving DecidableEq

/-- `parseValue` from the shared utility module: numbers pass through,
non-strings degrade to `0`, strings go through the fraction/decimal parser. -/
def parseValue : JsVal → ℚ
  | .num q => q
  | .str s => parseValueChars s.data
  | .undef => 0

/-- Unit tag of a parsed dimension. -/
inductive DimUnit where
  | inches
  | mm
  | cm
deriving DecidableEq

/-- `ParsedDimension` from the shared utility module.  The original text is
kept as characters; for numeric input the source stores `value.toString()`,
which no geometry consumer reads, so it is modelled as `[]`. -/
structure ParsedDimension where
  value : ℚ
  unit : DimUnit
  originalChars : List Char
deriving DecidableEq

/-- `parseDimensionWithUnit`: trim, detect a case-insensitive `mm` / `cm`
suffix (checked on the lower-cased text, `mm` first), strip it and parse the
remaining numeric text; otherwise parse the trimmed original as inches. -/
def parseDimensionWithUnit : JsVal → ParsedDimension
  | .num q => ⟨q, .inches, []⟩
  | .undef => ⟨0, .inches, []⟩
  | .str s =>
    let orig := jsTrim s.data
    let lower := jsToLower orig
    if hasSub2 'm' 'm' lower then
      ⟨parseValueChars (jsTrim (removeSub2 'm' 'm' lower)), .mm, orig⟩
    else if hasSub2 'c' 'm' lower then
      ⟨parseValueChars (jsTrim (removeSub2 'c' 'm' lower)), .cm, orig⟩
    else
      ⟨parseValueChars orig, .inches, orig⟩

/-- `convertToInches`: identity for inches, `/ 25.4` for mm, `/ 2.54` for cm. -/
def convertToInches (d : ParsedDimension) : ℚ :=
  match d.unit with
  | .mm => d.value / (25.4 : ℚ)
  | .cm => d.value / (2.54 : ℚ)
  | .inches => d.value

/-- The `process` values of a machining step. -/
inductive Process where
  | centerDrill
  | drill
  | tap
  | bore
  | ream
  | face
deriving DecidableEq

/-- The legacy per-step unit selector (not consumed by the canonical
renderer, kept for structural fidelity). -/
inductive StepUnit where
  | inches
  | mm
deriving DecidableEq

/-- `MachiningStep` from the shared types module. -/
structure MachiningStep where
  id : String := ""
  process : Process
  size : Option String := none
  depth : Option String := none
  threadSize : Option String := none
  finalDiameter : Option String := none
  unit : StepUnit := .inches
deriving DecidableEq

/-- The slice of a component record consumed by the shared drawing component:
`BaseSpec & \x7b exposedLength?, diameter? \x7d`, plus the optional `length`
field probed with `'length' in spec`. -/
structure ComponentSpec where
  name : String := ""
  machiningSteps : List MachiningStep := []
  exposedLength : Option String := none
  diameter : Option String := none
  length : Option String := none
deriving DecidableEq

/-- JavaScript truthiness of an optional string field: present and
non-empty. -/
def truthy : Option String → Bool
  | some s => !s.isEmpty
  | none => false

/-- The `step.field || '0'` defaulting idiom. -/
def orZero (o : Option String) : String :=
  match o with
  | some s => if s.isEmpty then "0" else s
  | none => "0"

/-- `getMaxDiameter` (utils): fold over every step that has a truthy `size`
(regardless of its `process`), keeping the largest converted diameter. -/
def getMaxDiameter (steps : List MachiningStep) : ℚ :=
  steps.foldl (fun m step =>
    if truthy step.size then
      let d := convertToInches (parseDimensionWithUnit (.str (step.size.getD "")))
      if d > m then d else m
    else m) 0

/-- The per-step fold of `getMaxDepth`: largest converted `depth` over every
step with a truthy `depth`. -/
def maxDepthFold (steps : List MachiningStep) : ℚ :=
  steps.foldl (fun m step =>
    if truthy step.depth then
      (if convertToInches (parseDimensionWithUnit (.str (step.depth.getD ""))) > m
       then convertToInches (parseDimensionWithUnit (.str (step.depth.getD ""))) else m)
    else m) 0

/-- One `if (field) { ... if (v > maxDepth) maxDepth = v }` stage of
`getMaxDepth`. -/
def bumpIfLarger (o : Option String) (m : ℚ) : ℚ :=
  if truthy o then
    (if convertToInches (parseDimensionWithUnit (.str (o.getD ""))) > m
     then convertToInches (parseDimensionWithUnit (.str (o.getD ""))) else m)
  else m

/-- `getMaxDepth` (utils): largest converted `depth` over every step with a
truthy `depth`, then folded with the exposed length and the material
length when those are truthy. -/
def getMaxDepth (steps : List MachiningStep)
    (exposedLength materialLength : Option String) : ℚ :=
  bumpIfLarger materialLength (bumpIfLarger exposedLength (maxDepthFold steps))

/-- `getMaterialDiameter` (pins page): an explicit `diameter` field wins;
otherwise the largest machined diameter plus 25 % stock allowance. -/
def getMaterialDiameter (spec : ComponentSpec) : ℚ :=
  if truthy spec.diameter then
    convertToInches (parseDimensionWithUnit (.str (spec.diameter.getD "")))
  else
    getMaxDiameter spec.machiningSteps * (5/4)

/-- The `maxDepth` used by the drawing component:
`getMaxDepth(spec.machiningSteps, spec.exposedLength, spec.length)`. -/
def specMaxDepth (spec : ComponentSpec) : ℚ :=
  getMaxDepth spec.machiningSteps spec.exposedLength spec.length

/-- `solid` / `hole` tag of a cross-section segment. -/
inductive SegType where
  | solid
  | hole
deriving DecidableEq

/-- One segment of the generated cross-section profile;
`holeSize` is only attached to hole segments. -/
structure CrossSectionSegment where
  startDepth : ℚ
  endDepth : ℚ
  radius : ℚ
  type : SegType
  outerRadius : ℚ
  holeSize : Option ℚ := none
deriving DecidableEq

/-- A candidate hole: a Drill step after parsing and unit conversion. -/
structure HoleOp where
  depth : ℚ
  radius : ℚ
deriving DecidableEq

/-- The Drill-step predicate shared by `generateCrossSectionProfile` and the
renderer's shoulder guard: process Drill, parsed depth and size positive. -/
def isQualifyingDrill (step : MachiningStep) : Bool :=
  step.process == Process.drill
    && decide (0 < parseValue (.str (orZero step.depth)))
    && decide (0 < parseValue (.str (orZero step.size)))

/-- The `drillOps` filter of the profile builder and shoulder guard. -/
def qualifyingDrills (steps : List MachiningStep) : List MachiningStep :=
  steps.filter isQualifyingDrill

/-- Conversion of a qualifying Drill step into a candidate hole
(depth in inches, radius = half the converted size). -/
def toHoleOp (step : MachiningStep) : HoleOp :=
  { depth := convertToInches (parseDimensionWithUnit (.str (orZero step.depth)))
    radius := convertToInches (parseDimensionWithUnit (.str (orZero step.size))) / 2 }

/-- Candidate holes in step order (before sorting). -/
def candidateHoles (steps : List MachiningStep) : List HoleOp :=
  (qualifyingDrills steps).map toHoleOp

/-- The `drillOps` array: candidate holes, stably sorted deepest first. -/
def sortedHoles (steps : List MachiningStep) : List HoleOp :=
  List.insertionSort (fun a b => b.depth ≤ a.depth) (candidateHoles steps)

/-- The segment boundaries: `[0, ...drill depths, maxDepth]` sorted
ascending. -/
def depthPoints (spec : ComponentSpec) : List ℚ :=
  List.insertionSort (· ≤ ·)
    (0 :: (sortedHoles spec.machiningSteps).map HoleOp.depth ++ [specMaxDepth spec])

/-- The `reduce` that keeps the hole with the strictly larger radius
(first maximum wins on ties). -/
def pickLargest (h : HoleOp) (t : List HoleOp) : HoleOp :=
  t.foldl (fun largest current =>
    if current.radius > largest.radius then current else largest) h

/-- One boundary interval `[a, b)`: solid at the stock radius when no
candidate hole reaches depth `b`, otherwise a hole at the radius of the
largest hole that does. -/
def mkSegment (ops : List HoleOp) (outerR a b : ℚ) : CrossSectionSegment :=
  match ops.filter (fun op => decide (b ≤ op.depth)) with
  | [] => ⟨a, b, outerR, .solid, outerR, none⟩
  | h :: t =>
    let active := pickLargest h t
    ⟨a, b, active.radius, .hole, outerR, some (active.radius * 2)⟩

/-- The profile loop over consecutive boundary pairs. -/
def segmentsOf (ops : List HoleOp) (outerR : ℚ) : List ℚ → List CrossSectionSegment
  | a :: b :: rest => mkSegment ops outerR a b :: segmentsOf ops outerR (b :: rest)
  | _ => []

/-- `generateCrossSectionProfile` from the shared drawing component. -/
def generateCrossSectionProfile (spec : ComponentSpec) : List CrossSectionSegment :=
  let maxDiam := getMaterialDiameter spec
  let maxDepth := specMaxDepth spec
  let originalRadius := maxDiam / 2
  let drillOps := sortedHoles spec.machiningSteps
  if drillOps.isEmpty then
    [⟨0, maxDepth, originalRadius, .solid, originalRadius, none⟩]
  else
    segmentsOf drillOps originalRadius (depthPoints spec)

/-- The `step.depth && step.size && (Drill || Bore)` filter used for the
tap's prior and later cutting operations (truthiness, no positivity check). -/
def isThreadCutCandidate (step : MachiningStep) : Bool :=
  truthy step.depth && truthy step.size
    && (step.process == Process.drill || step.process == Process.bore)

/-- `priorDrillOps`: Drill/Bore steps before the tap, stably sorted by parsed
depth, deepest first. -/
def priorDrillOps (steps : List MachiningStep) (tapIdx : ℕ) : List MachiningStep :=
  List.insertionSort
    (fun a b => parseValue (.str (orZero b.depth)) ≤ parseValue (.str (orZero a.depth)))
    ((steps.take tapIdx).filter isThreadCutCandidate)

/-- The Drill/Bore operations after the tap that may cut threads away. -/
def laterCutOps (steps : List MachiningStep) (tapIdx : ℕ) : List MachiningStep :=
  (steps.drop (tapIdx + 1)).filter isThreadCutCandidate

/-- The thread-region computation of the renderer for the tap at `tapIdx`:
the target hole is the deepest prior Drill/Bore; threads default to
`[0, target.depth]`; every later Drill/Bore with a strictly larger size
advances the start to its own depth; an empty region yields `none`. -/
def resolveThreadRegion (steps : List MachiningStep) (tapIdx : ℕ) : Option (ℚ × ℚ) :=
  match (priorDrillOps steps tapIdx).head? with
  | none => none
  | some target =>
    let threadEndDepth := parseValue (.str (orZero target.depth))
    let threadStartDepth := (laterCutOps steps tapIdx).foldl
      (fun s op =>
        if parseValue (.str (orZero op.size)) > parseValue (.str (orZero target.size))
        then max s (parseValue (.str (orZero op.depth))) else s) 0
    if threadStartDepth ≥ threadEndDepth then none
    else some (threadStartDepth, threadEndDepth)

/-- Number of zig-zag marks drawn by
`for (x = startX; x > endX; x -= pitch)`: the k-th mark sits at
`startX - k * pitch`, so the count is the positive ceiling of
`(startX - endX) / pitch`. -/
def threadMarkCount (startX endX pitch : ℚ) : ℕ :=
  ⌈(startX - endX) / pitch⌉₊

/-- The x-positions visited by the thread-mark loop. -/
def threadMarkXs (startX endX pitch : ℚ) : List ℚ :=
  (List.range (threadMarkCount startX endX pitch)).map
    (fun k => startX - (k : ℚ) * pitch)

/-- Stroke attributes of a drawn line. -/
structure LineStyle where
  stroke : String
  width : ℚ
  dash : Option String := none
deriving DecidableEq

/-- A vector drawing primitive (geometric content of the emitted SVG
elements; presentation-only attributes such as anchoring are omitted). -/
inductive Prim where
  | line (x1 y1 x2 y2 : ℚ) (style : LineStyle)
  | text (x y : ℚ) (fontSize : ℚ) (fill : String) (content : String)
deriving DecidableEq

/-- An ordered primitive list plus the canvas size. -/
structure VectorScene where
  width : ℚ
  height : ℚ
  prims : List Prim
deriving DecidableEq

def black : String := "#000000"

def blue : String := "#2563eb"

def gray : String := "#666666"

def purple : String := "#9333ea"

def orange : String := "#ff6b35"

def solidLine (x1 y1 x2 y2 w : ℚ) : Prim := .line x1 y1 x2 y2 ⟨black, w, none⟩

/-- The layout scalars computed at the top of `TechnicalDrawingSVG`. -/
structure Layout where
  scale : ℚ
  strokeWidth : ℚ
  svgWidth : ℚ
  svgHeight : ℚ
  leftX : ℚ
  rightX : ℚ
  adjustedCenterY : ℚ
  maxDiameter : ℚ
  maxDepth : ℚ
deriving DecidableEq

/-- Canvas and axis layout of `TechnicalDrawingSVG` (`isModal` selects the
full view over the thumbnail). -/
def layoutOf (spec : ComponentSpec) (isModal : Bool) : Layout :=
  let maxDiameter := getMaterialDiameter spec
  let maxDepth := specMaxDepth spec
  let scale : ℚ := if isModal then 120 else 40
  let hasDiameter := truthy spec.diameter
  let drawingWidth := maxDepth * scale
  let drawingHeight := maxDiameter * scale
  let leftPadding : ℚ :=
    if hasDiameter then (if isModal then 100 else 30) else (if isModal then 50 else 15)
  let exposedLengthSpace : ℚ :=
    if truthy spec.exposedLength then
      convertToInches (parseDimensionWithUnit (.str (spec.exposedLength.getD ""))) * scale
        + (if isModal then 60 else 40)
    else 0
  let rightPadding : ℚ :=
    max (if truthy spec.length then (if isModal then (80 : ℚ) else 50)
         else (if isModal then 60 else 25))
      exposedLengthSpace
  let topPadding : ℚ :=
    if truthy spec.length then (if isModal then 80 else 30) else (if isModal then 30 else 10)
  let bottomPadding : ℚ := if isModal then 150 else 30
  let svgWidth := drawingWidth + leftPadding + rightPadding
  let svgHeight := drawingHeight + topPadding + bottomPadding
  let centerX := svgWidth / 2
  { scale
    strokeWidth := if isModal then 2 else 1
    svgWidth
    svgHeight
    leftX := centerX - drawingWidth / 2
    rightX := centerX + drawingWidth / 2
    adjustedCenterY := topPadding + drawingHeight / 2
    maxDiameter
    maxDepth }

/-- Shoulder lines at the start of a hole segment, drawn only when the
previous segment exists, is a hole, and has a different radius. -/
def startShoulderPrims (L : Layout) (profile : List CrossSectionSegment)
    (i : ℕ) (seg : CrossSectionSegment) : List Prim :=
  if 0 < i then
    match profile.get? (i - 1) with
    | some prev =>
      if prev.type = .hole ∧ prev.radius ≠ seg.radius then
        [solidLine (L.rightX - seg.startDepth * L.scale)
           (L.adjustedCenterY - seg.radius * L.scale)
           (L.rightX - seg.startDepth * L.scale)
           (L.adjustedCenterY - prev.radius * L.scale) L.strokeWidth,
         solidLine (L.rightX - seg.startDepth * L.scale)
           (L.adjustedCenterY + seg.radius * L.scale)
           (L.rightX - seg.startDepth * L.scale)
           (L.adjustedCenterY + prev.radius * L.scale) L.strokeWidth]
      else []
    | none => []
  else []

/-- Shoulder lines at the end of a hole segment, drawn only when the next
segment exists, is a hole, and has a different radius. -/
def endShoulderPrims (L : Layout) (profile : List CrossSectionSegment)
    (i : ℕ) (seg : CrossSectionSegment) : List Prim :=
  if i < profile.length - 1 then
    match profile.get? (i + 1) with
    | some next =>
      if next.type = .hole ∧ next.radius ≠ seg.radius then
        [solidLine (L.rightX - seg.endDepth * L.scale)
           (L.adjustedCenterY - seg.radius * L.scale)
           (L.rightX - seg.endDepth * L.scale)
           (L.adjustedCenterY - next.radius * L.scale) L.strokeWidth,
         solidLine (L.rightX - seg.endDepth * L.scale)
           (L.adjustedCenterY + seg.radius * L.scale)
           (L.rightX - seg.endDepth * L.scale)
           (L.adjustedCenterY + next.radius * L.scale) L.strokeWidth]
      else []
    | none => []
  else []

/-- Shoulder lines contributed by the hole segment at position `i`: guarded
by more than one qualifying drill operation, and drawn only against an
adjacent hole segment of different radius. -/
def shoulderPrimsAt (spec : ComponentSpec) (L : Layout)
    (profile : List CrossSectionSegment) (i : ℕ) (seg : CrossSectionSegment) : List Prim :=
  if (qualifyingDrills spec.machiningSteps).length ≤ 1 then []
  else startShoulderPrims L profile i seg ++ endShoulderPrims L profile i seg

/-- Per-segment drawing: outer envelope lines always; for hole segments the
inner bore lines followed by the shoulder lines. -/
def segmentPrims (spec : ComponentSpec) (L : Layout)
    (profile : List CrossSectionSegment) : List Prim :=
  profile.enum.flatMap (fun p =>
    let i := p.1
    let seg := p.2
    let segStartX := L.rightX - seg.startDepth * L.scale
    let segEndX := L.rightX - seg.endDepth * L.scale
    let innerR := seg.radius * L.scale
    let oR := (if seg.outerRadius = 0 then L.maxDiameter / 2 else seg.outerRadius) * L.scale
    [solidLine segStartX (L.adjustedCenterY - oR) segEndX (L.adjustedCenterY - oR) L.strokeWidth,
     solidLine segStartX (L.adjustedCenterY + oR) segEndX (L.adjustedCenterY + oR) L.strokeWidth]
      ++ (if seg.type = .hole then
            [solidLine segStartX (L.adjustedCenterY - innerR)
               segEndX (L.adjustedCenterY - innerR) L.strokeWidth,
             solidLine segStartX (L.adjustedCenterY + innerR)
               segEndX (L.adjustedCenterY + innerR) L.strokeWidth]
              ++ shoulderPrimsAt spec L profile i seg
          else []))

/-- Thread zig-zag marks for the tap at `tapIdx` (empty when the resolver
yields no region). -/
def threadPrimsForTap (steps : List MachiningStep) (L : Layout) (isModal : Bool)
    (tapIdx : ℕ) : List Prim :=
  let threadPitch : ℚ := if isModal then 5 else 3
  let tsw : ℚ := if isModal then 3/2 else 4/5
  let tOff : ℚ := if isModal then 3 else 3/2
  match (priorDrillOps steps tapIdx).head? with
  | none => []
  | some target =>
    let tapRadius := parseValue (.str (orZero target.size)) / 2 * L.scale
    match resolveThreadRegion steps tapIdx with
    | none => []
    | some (s, e) =>
      let startX := L.rightX - s * L.scale
      let endX := L.rightX - e * L.scale
      (threadMarkXs startX endX threadPitch).flatMap (fun x =>
        [.line x (L.adjustedCenterY - tapRadius)
           (x - tOff) (L.adjustedCenterY - tapRadius / 2) ⟨blue, tsw, none⟩,
         .line (x - tOff) (L.adjustedCenterY - tapRadius / 2)
           (x - tOff * 2) L.adjustedCenterY ⟨blue, tsw, none⟩,
         .line (x - tOff * 2) L.adjustedCenterY
           (x - tOff) (L.adjustedCenterY + tapRadius / 2) ⟨blue, tsw, none⟩,
         .line (x - tOff) (L.adjustedCenterY + tapRadius / 2)
           x (L.adjustedCenterY + tapRadius) ⟨blue, tsw, none⟩])

/-- All thread marks: one block per Tap step with a truthy `threadSize`,
in step order. -/
def threadPrims (spec : ComponentSpec) (L : Layout) (isModal : Bool) : List Prim :=
  spec.machiningSteps.enum.flatMap (fun p =>
    if p.2.process = Process.tap ∧ truthy p.2.threadSize then
      threadPrimsForTap spec.machiningSteps L isModal p.1
    else [])

/-- The standard sixteenth-inch fraction table of `formatDimension`. -/
def sixteenths : List (ℚ × String) :=
  [(0.0625, "1/16"), (0.125, "1/8"), (0.1875, "3/16"), (0.25, "1/4"),
   (0.3125, "5/16"), (0.375, "3/8"), (0.4375, "7/16"), (0.5, "1/2"),
   (0.5625, "9/16"), (0.625, "5/8"), (0.6875, "11/16"), (0.75, "3/4"),
   (0.8125, "13/16"), (0.875, "7/8"), (0.9375, "15/16")]

/-- Zero left-padding of a digit string. -/
def natPadLeft (s : String) (len : ℕ) : String :=
  String.mk (List.replicate (len - s.length) '0') ++ s

/-- Decimal rendering of a rational with `n` fixed fraction digits
(display-only counterpart of `Number.prototype.toFixed`; rounds the exact
rational half-up). -/
def ratToFixed (q : ℚ) (n : ℕ) : String :=
  let neg := q < 0
  let m : ℕ := (⌊|q| * 10 ^ n + 1/2⌋).toNat
  let ipart := m / 10 ^ n
  let fpart := m % 10 ^ n
  let core := toString ipart ++ (if n = 0 then "" else "." ++ natPadLeft (toString fpart) n)
  if neg ∧ m ≠ 0 then "-" ++ core else core

/-- `formatDimension`: snap the fractional part of an inch value to a
sixteenth within `0.001`, otherwise three decimals; metric renders one
decimal plus the unit suffix. -/
def formatDimension (d : ParsedDimension) : String :=
  match d.unit with
  | .inches =>
    let whole : ℤ := ⌊d.value⌋
    let frac : ℚ := d.value - whole
    match sixteenths.find? (fun p => decide (|p.1 - frac| < 0.001)) with
    | some p =>
      if whole > 0 then toString whole ++ " " ++ p.2 ++ "\"" else p.2 ++ "\""
    | none => ratToFixed d.value 3 ++ "\""
  | .mm => ratToFixed d.value 1 ++ "mm"
  | .cm => ratToFixed d.value 1 ++ "cm"

/-- The exposed-length group: dashed outline of the exposed portion at a
hard-coded 0.25 in diameter, its dimension line, extension lines and label. -/
def exposedPrims (spec : ComponentSpec) (L : Layout) (isModal : Bool) : List Prim :=
  if truthy spec.exposedLength then
    let dim := parseDimensionWithUnit (.str (spec.exposedLength.getD ""))
    let inches := convertToInches dim
    let px := inches * L.scale
    let rPx := ((0.25 : ℚ) / 2) * L.scale
    let sX := L.rightX
    let eX := L.rightX + px
    let dash : Option String := some (if isModal then "4,4" else "2,2")
    let dash2 : Option String := some (if isModal then "3,3" else "2,2")
    [.line sX (L.adjustedCenterY - rPx) eX (L.adjustedCenterY - rPx) ⟨gray, L.strokeWidth, dash⟩,
     .line sX (L.adjustedCenterY + rPx) eX (L.adjustedCenterY + rPx) ⟨gray, L.strokeWidth, dash⟩,
     .line eX (L.adjustedCenterY - rPx) eX (L.adjustedCenterY + rPx) ⟨gray, L.strokeWidth, dash⟩,
     .line sX (L.adjustedCenterY + rPx + (if isModal then 15 else 8))
       eX (L.adjustedCenterY + rPx + (if isModal then 15 else 8))
       ⟨purple, if isModal then 2 else 4/5, none⟩,
     .line sX (L.adjustedCenterY + rPx) sX (L.adjustedCenterY + rPx + (if isModal then 20 else 12))
       ⟨purple, (if isModal then 1 else 1/2), dash2⟩,
     .line eX (L.adjustedCenterY + rPx) eX (L.adjustedCenterY + rPx + (if isModal then 20 else 12))
       ⟨purple, (if isModal then 1 else 1/2), dash2⟩,
     .text ((sX + eX) / 2) (L.adjustedCenterY + rPx + (if isModal then 35 else 20))
       (if isModal then 14 else 6) purple
       ((if isModal then formatDimension dim else spec.exposedLength.getD "") ++ " exposed")]
  else []

/-- Left end cap, dashed centerline, zero-reference line and "0" label. -/
def framePrims (L : Layout) (isModal : Bool) : List Prim :=
  [solidLine L.leftX (L.adjustedCenterY - L.maxDiameter * L.scale / 2)
     L.leftX (L.adjustedCenterY + L.maxDiameter * L.scale / 2) L.strokeWidth,
   .line (L.leftX - (if isModal then 30 else 10)) L.adjustedCenterY
     (L.rightX + (if isModal then 30 else 10)) L.adjustedCenterY
     ⟨black, 1/2, some (if isModal then "8,8" else "4,4")⟩,
   .line L.rightX (L.adjustedCenterY - L.maxDiameter * L.scale / 2 - (if isModal then 20 else 5))
     L.rightX (L.adjustedCenterY + L.maxDiameter * L.scale / 2 + (if isModal then 60 else 15))
     ⟨black, (if isModal then 1 else 1/2), none⟩,
   .text (L.rightX + (if isModal then 8 else 3))
     (L.adjustedCenterY + L.maxDiameter * L.scale / 2 + (if isModal then 50 else 12))
     (if isModal then 16 else 8) black "0"]

/-- Overall stock-length dimension group (only when `length` is truthy). -/
def lengthDimPrims (spec : ComponentSpec) (L : Layout) (isModal : Bool) : List Prim :=
  if truthy spec.length then
    let topY := L.adjustedCenterY - L.maxDiameter * L.scale / 2
    let w : ℚ := if isModal then 2 else 4/5
    let extW : ℚ := if isModal then 1 else 1/2
    let dash2 : Option String := some (if isModal then "3,3" else "2,2")
    let lv := spec.length.getD ""
    [.line L.leftX (topY - (if isModal then 40 else 20))
       L.rightX (topY - (if isModal then 40 else 20)) ⟨blue, w, none⟩,
     .line (L.leftX + (if isModal then 8 else 3)) (topY - (if isModal then 48 else 23))
       L.leftX (topY - (if isModal then 40 else 20)) ⟨blue, w, none⟩,
     .line (L.leftX + (if isModal then 8 else 3)) (topY - (if isModal then 32 else 17))
       L.leftX (topY - (if isModal then 40 else 20)) ⟨blue, w, none⟩,
     .line (L.rightX - (if isModal then 8 else 3)) (topY - (if isModal then 48 else 23))
       L.rightX (topY - (if isModal then 40 else 20)) ⟨blue, w, none⟩,
     .line (L.rightX - (if isModal then 8 else 3)) (topY - (if isModal then 32 else 17))
       L.rightX (topY - (if isModal then 40 else 20)) ⟨blue, w, none⟩,
     .line L.leftX topY L.leftX (topY - (if isModal then 50 else 25)) ⟨blue, extW, dash2⟩,
     .line L.rightX topY L.rightX (topY - (if isModal then 50 else 25)) ⟨blue, extW, dash2⟩,
     .text ((L.leftX + L.rightX) / 2) (topY - (if isModal then 50 else 25))
       (if isModal then 16 else 7) blue
       (if isModal then formatDimension (parseDimensionWithUnit (.str lv)) else lv)]
  else []

/-- Material-diameter dimension group (only when `diameter` is truthy). -/
def diameterDimPrims (spec : ComponentSpec) (L : Layout) (isModal : Bool) : List Prim :=
  if truthy spec.diameter then
    let topY := L.adjustedCenterY - L.maxDiameter * L.scale / 2
    let botY := L.adjustedCenterY + L.maxDiameter * L.scale / 2
    let x0 := L.leftX - (if isModal then (40 : ℚ) else 15)
    let w : ℚ := if isModal then 2 else 4/5
    let dv := spec.diameter.getD ""
    [.line x0 topY x0 botY ⟨orange, w, none⟩,
     .line (L.leftX - (if isModal then 48 else 18)) (topY + (if isModal then 8 else 3))
       x0 topY ⟨orange, w, none⟩,
     .line (L.leftX - (if isModal then 32 else 12)) (topY + (if isModal then 8 else 3))
       x0 topY ⟨orange, w, none⟩,
     .line (L.leftX - (if isModal then 48 else 18)) (botY - (if isModal then 8 else 3))
       x0 botY ⟨orange, w, none⟩,
     .line (L.leftX - (if isModal then 32 else 12)) (botY - (if isModal then 8 else 3))
       x0 botY ⟨orange, w, none⟩,
     .text (L.leftX - (if isModal then 60 else 25)) (L.adjustedCenterY + (if isModal then 5 else 2))
       (if isModal then 16 else 7) orange
       ("⌀" ++ (if isModal then formatDimension (parseDimensionWithUnit (.str dv)) else dv))]
  else []

/-- A Drill/Bore operation prepared for the modal call-outs. -/
structure DimOp where
  depth : ℚ
  size : ℚ
  depthFormatted : String
  sizeFormatted : String
deriving DecidableEq

/-- The Drill/Bore operations with parsed depth and size used by the modal
depth dimensions and diameter call-outs. -/
def dimOps (steps : List MachiningStep) : List DimOp :=
  (steps.filter isThreadCutCandidate).map (fun step =>
    let dd := parseDimensionWithUnit (.str (orZero step.depth))
    let sd := parseDimensionWithUnit (.str (orZero step.size))
    { depth := convertToInches dd
      size := convertToInches sd
      depthFormatted := formatDimension dd
      sizeFormatted := formatDimension sd })

/-- Modal-only per-operation depth dimensions (sorted shallow first). -/
def depthDimPrims (spec : ComponentSpec) (L : Layout) (isModal : Bool) : List Prim :=
  if isModal then
    (List.insertionSort (fun a b => a.depth ≤ b.depth) (dimOps spec.machiningSteps)).enum.flatMap
      (fun p =>
        let i := p.1
        let op := p.2
        let depthX := L.rightX - op.depth * L.scale
        let yPos := L.adjustedCenterY + L.maxDiameter * L.scale / 2 + 30 + (i : ℚ) * 25
        [.line L.rightX yPos depthX yPos ⟨gray, 1, none⟩,
         .line depthX (L.adjustedCenterY + L.maxDiameter * L.scale / 2 + 15)
           depthX (yPos + 5) ⟨gray, 1/2, some "3,3"⟩,
         .line (L.rightX - 5) (yPos - 3) L.rightX yPos ⟨gray, 1, none⟩,
         .line (L.rightX - 5) (yPos + 3) L.rightX yPos ⟨gray, 1, none⟩,
         .line (depthX + 5) (yPos - 3) depthX yPos ⟨gray, 1, none⟩,
         .line (depthX + 5) (yPos + 3) depthX yPos ⟨gray, 1, none⟩,
         .text ((L.rightX + depthX) / 2) (yPos - 8) 12 gray
           ("⌀" ++ op.sizeFormatted ++ " × " ++ op.depthFormatted)])
  else []

/-- Modal-only hole diameter call-outs (sorted largest first). -/
def calloutPrims (spec : ComponentSpec) (L : Layout) (isModal : Bool) : List Prim :=
  if isModal then
    (List.insertionSort (fun a b => b.size ≤ a.size) (dimOps spec.machiningSteps)).enum.flatMap
      (fun p =>
        let i := p.1
        let op := p.2
        let holeR := op.size / 2 * L.scale
        let cX := L.rightX - op.depth * L.scale * (3/10)
        let cY := L.adjustedCenterY - holeR - 20 - (i : ℚ) * 25
        [.line (L.rightX - op.depth * L.scale * (7/10)) (L.adjustedCenterY - holeR)
           cX (cY + 15) ⟨blue, 1, none⟩,
         .text cX cY 12 blue ("⌀" ++ op.sizeFormatted)])
  else []

/-- The full scene of `TechnicalDrawingSVG` (the spec's `renderScene`):
canvas size plus the primitives in document order. -/
def TechnicalDrawingSVG (spec : ComponentSpec) (isModal : Bool) : VectorScene :=
  let L := layoutOf spec isModal
  let profile := generateCrossSectionProfile spec
  { width := L.svgWidth
    height := L.svgHeight
    prims :=
      segmentPrims spec L profile
        ++ threadPrims spec L isModal
        ++ exposedPrims spec L isModal
        ++ framePrims L isModal
        ++ lengthDimPrims spec L isModal
        ++ diameterDimPrims spec L isModal
        ++ depthDimPrims spec L isModal
        ++ calloutPrims spec L isModal }

/-! ### Concrete example specs used by several claims -/

/-- The fully empty component record. -/
def emptySpec : ComponentSpec := {}

/-- Drill 0.25 in diameter, 0.5 in deep. -/
def drillSmallDeep : MachiningStep :=
  { process := .drill, size := some "0.25", depth := some "0.5" }

/-- Drill 0.5 in diameter, 0.25 in deep. -/
def drillBigShallow : MachiningStep :=
  { process := .drill, size := some "0.5", depth := some "0.25" }

/-- The two-drill spec of the largest-hole-wins example. -/
def twoDrillSpec : ComponentSpec :=
  { machiningSteps := [drillSmallDeep, drillBigShallow] }

/-- A single 1 in by 1 in drill. -/
def oneDrillSpec : ComponentSpec :=
  { machiningSteps := [{ process := .drill, size := some "1", depth := some "1" }] }

/-! ### Shared fold lemmas -/

theorem maxFold_le_init {α : Type} (p : α → Bool) (d : α → ℚ) :
    ∀ (l : List α) (m : ℚ),
      m ≤ l.foldl (fun m step => if p step then (if d step > m then d step else m) else m) m := by
  intro l
  induction l with
  | nil => intro m; exact le_refl m
  | cons x t ih =>
    intro m
    refine le_trans ?_ (ih _)
    by_cases hp : p x
    · by_cases hd : d x > m
      · simp only [hp, hd, if_true]
        exact le_of_lt hd
      · simp [hp, hd]
    · simp [hp]

theorem maxFold_mono {α : Type} (p : α → Bool) (d : α → ℚ) :
    ∀ (l : List α) (m m' : ℚ), m ≤ m' →
      l.foldl (fun m step => if p step then (if d step > m then d step else m) else m) m
        ≤ l.foldl (fun m step => if p step then (if d step > m then d step else m) else m) m' := by
  intro l
  induction l with
  | nil => intro m m' h; exact h
  | cons x t ih =>
    intro m m' h
    refine ih _ _ ?_
    by_cases hp : p x
    · by_cases hd : d x > m <;> by_cases hd' : d x > m' <;>
        simp [hp, hd, hd'] <;> first
        | exact le_of_lt hd'
        | exact le_of_not_lt hd'
        | exact le_of_lt (lt_of_le_of_lt h hd')
        | exact h
    · simp [hp, h]

theorem maxFold_ge_elem {α : Type} (p : α → Bool) (d : α → ℚ) :
    ∀ (l : List α) (m : ℚ) (x : α), x ∈ l → p x = true →
      d x ≤ l.foldl (fun m step => if p step then (if d step > m then d step else m) else m) m := by
  intro l
  induction l with
  | nil => intro m x hx; exact absurd hx (List.not_mem_nil x)
  | cons y t ih =>
    intro m x hx hp
    rcases List.mem_cons.mp hx with h | h
    · subst h
      refine le_trans ?_ (maxFold_le_init p d t _)
      by_cases hd : d x > m <;> simp [hp, hd]
      exact le_of_not_lt hd
    · exact le_trans (ih _ x h hp) (le_refl _)

/-! ### C6: unit conversion -/

/-- C6: `convertToInches` is the identity on inches, divides by `25.4` for
millimetres and by `2.54` for centimetres; in particular the parsed strings
`"25.4mm"` and `"2.54cm"` both convert to exactly one inch. -/
theorem C6_unit_conversion :
    (∀ d : ParsedDimension, d.unit = .inches → convertToInches d = d.value)
    ∧ (∀ d : ParsedDimension, d.unit = .mm → convertToInches d = d.value / (25.4 : ℚ))
    ∧ (∀ d : ParsedDimension, d.unit = .cm → convertToInches d = d.value / (2.54 : ℚ))
    ∧ convertToInches (parseDimensionWithUnit (.str "25.4mm")) = 1
    ∧ convertToInches (parseDimensionWithUnit (.str "2.54cm")) = 1 := by
  refine ⟨?_, ?_, ?_, by decide, by decide⟩ <;>
    · intro d h
      unfold convertToInches
      rw [h]

/-- Witness: the mm clause of `C6_unit_conversion` applied to the parsed
dimension of `"25.4mm"`. -/
theorem C6_unit_conversion_witness :
    (parseDimensionWithUnit (.str "25.4mm")).unit = DimUnit.mm
    ∧ convertToInches (parseDimensionWithUnit (.str "25.4mm"))
        = (parseDimensionWithUnit (.str "25.4mm")).value / (25.4 : ℚ) :=
  ⟨by decide, C6_unit_conversion.2.1 (parseDimensionWithUnit (.str "25.4mm")) (by decide)⟩

/-! ### C9: scene determinism -/

/-- C9: the scene generator is a pure function of the spec and the mode —
structurally equal specs rendered in the same mode produce the identical
primitive list and canvas size.  The embedding is total and deterministic
because the source computes the scene from the spec alone (no randomness,
no clock access). -/
theorem C9_scene_determinism :
    ∀ (s₁ s₂ : ComponentSpec) (isModal : Bool),
      s₁ = s₂ → TechnicalDrawingSVG s₁ isModal = TechnicalDrawingSVG s₂ isModal := by
  intro s₁ s₂ isModal h
  rw [h]

/-- Witness: determinism instantiated at the two-drill example spec. -/
theorem C9_scene_determinism_witness :
    TechnicalDrawingSVG twoDrillSpec true = TechnicalDrawingSVG twoDrillSpec true :=
  C9_scene_determinism twoDrillSpec twoDrillSpec true rfl

/-! ### C4: default geometry for empty input -/

/-- C4 counterexample: for the spec with no steps and no dimension fields the
canonical profile builder returns the single solid segment `[0, 0]` at radius
`0`, not the claimed `[0, 1]` at radius `0.25` — `getMaxDepth` defaults to
`0` (not 1 in) and the fallback stock radius is `0` (not 0.25 in). -/
theorem C4_counterexample :
    generateCrossSectionProfile emptySpec = [⟨0, 0, 0, .solid, 0, none⟩]
    ∧ ¬ (∃ seg ∈ generateCrossSectionProfile emptySpec,
          seg.endDepth = 1 ∧ seg.radius = 1/4) := by
  constructor
  · decide
  · decide

/-- C4 (amended): with no qualifying drill steps the profile is the single
solid segment `[0, maxDepth]` at the stock radius, where the defaults are `0`
(not 1 in and 0.25 in); and without an explicit diameter the working diameter
is the largest machined diameter increased by 25 %. -/
theorem C4_default_geometry :
    (∀ spec : ComponentSpec, sortedHoles spec.machiningSteps = [] →
      generateCrossSectionProfile spec
        = [⟨0, specMaxDepth spec, getMaterialDiameter spec / 2, .solid,
            getMaterialDiameter spec / 2, none⟩])
    ∧ (∀ spec : ComponentSpec, truthy spec.diameter = false →
        getMaterialDiameter spec = getMaxDiameter spec.machiningSteps * (5/4))
    ∧ generateCrossSectionProfile emptySpec = [⟨0, 0, 0, .solid, 0, none⟩] := by
  refine ⟨?_, ?_, by decide⟩
  · intro spec h
    unfold generateCrossSectionProfile
    rw [h]
    rfl
  · intro spec h
    unfold getMaterialDiameter
    rw [h]
    rfl

/-- Witness: `C4_default_geometry` applied to the empty spec. -/
theorem C4_default_geometry_witness :
    sortedHoles emptySpec.machiningSteps = []
    ∧ generateCrossSectionProfile emptySpec
        = [⟨0, specMaxDepth emptySpec, getMaterialDiameter emptySpec / 2, .solid,
            getMaterialDiameter emptySpec / 2, none⟩] :=
  ⟨by decide, C4_default_geometry.1 emptySpec (by decide)⟩

/-! ### C7: fields of non-Drill steps -/

/-- Two steps that agree on every field except possibly `size`, which may
only differ when the step is not a Drill. -/
def sameButSize (s t : MachiningStep) : Prop :=
  s.id = t.id ∧ s.process = t.process ∧ s.depth = t.depth ∧ s.threadSize = t.threadSize
    ∧ s.finalDiameter = t.finalDiameter ∧ s.unit = t.unit
    ∧ (s.size = t.size ∨ s.process ≠ .drill)

theorem sameButSize_drill_eq {s t : MachiningStep} (h : sameButSize s t)
    (hd : s.process = Process.drill) : s = t := by
  obtain ⟨h1, h2, h3, h4, h5, h6, h7⟩ := h
  rcases h7 with h7 | h7
  · cases s; cases t
    simp_all
  · exact absurd hd h7

/-- A tap step with no `size` field. -/
def tapPlain : MachiningStep := { process := .tap, threadSize := some "5/16-18" }

/-- The same tap step with a (meaningless) 2 in `size`. -/
def tapWithSize : MachiningStep := { tapPlain with size := some "2" }

/-- Spec with a drill and a size-less tap. -/
def specTapPlain : ComponentSpec := { machiningSteps := [drillSmallDeep, tapPlain] }

/-- The same spec after editing only the tap's `size` field. -/
def specTapWithSize : ComponentSpec := { machiningSteps := [drillSmallDeep, tapWithSize] }

/-- C7 counterexample: editing the `size` of a Tap step changes the computed
maximum diameter (`getMaxDiameter` reads `size` from every step regardless of
`process`), hence the working stock diameter and the generated profile. -/
theorem C7_counterexample :
    specTapPlain.machiningSteps.length = specTapWithSize.machiningSteps.length
    ∧ tapWithSize = { tapPlain with size := some "2" }
    ∧ getMaxDiameter specTapPlain.machiningSteps = 1/4
    ∧ getMaxDiameter specTapWithSize.machiningSteps = 2
    ∧ getMaterialDiameter specTapPlain = 5/16
    ∧ getMaterialDiameter specTapWithSize = 5/2
    ∧ generateCrossSectionProfile specTapPlain ≠ generateCrossSectionProfile specTapWithSize := by
  refine ⟨by decide, rfl, by decide, by decide, by decide, by decide, by decide⟩

/-- C7 (amended): numeric fields of non-Drill steps are ignored by the
profile builder's candidate-hole selection and by the depth summary, but not
by `getMaxDiameter` (and hence not by the working stock diameter): changing a
non-Drill step's `size` leaves the candidate holes and `getMaxDepth`
unchanged, while `C7_counterexample` shows it can change `getMaxDiameter`,
`getMaterialDiameter` and the profile's stock radius. -/
theorem C7_unused_fields :
    ∀ steps steps' : List MachiningStep, List.Forall₂ sameButSize steps steps' →
      candidateHoles steps = candidateHoles steps'
      ∧ ∀ e l : Option String, getMaxDepth steps e l = getMaxDepth steps' e l := by
  intro steps steps' hF
  constructor
  · unfold candidateHoles qualifyingDrills
    induction hF with
    | nil => rfl
    | @cons a b t₁ t₂ hab htail ih =>
      by_cases hd : a.process = Process.drill
      · rw [sameButSize_drill_eq hab hd]
        simp only [List.filter_cons]
        by_cases hq : isQualifyingDrill b
        · simp [hq, ih]
        · simp [hq, ih]
      · have hq : isQualifyingDrill a = false := by
          unfold isQualifyingDrill
          simp [hd]
        have hq' : isQualifyingDrill b = false := by
          unfold isQualifyingDrill
          rw [← hab.2.1]
          simp [hd]
        simp [List.filter_cons, hq, hq', ih]
  · intro e l
    unfold getMaxDepth maxDepthFold
    have hfold : ∀ (m : ℚ),
        steps.foldl (fun m step =>
          if truthy step.depth then
            (if convertToInches (parseDimensionWithUnit (.str (step.depth.getD ""))) > m
             then convertToInches (parseDimensionWithUnit (.str (step.depth.getD ""))) else m)
          else m) m
        = steps'.foldl (fun m step =>
          if truthy step.depth then
            (if convertToInches (parseDimensionWithUnit (.str (step.depth.getD ""))) > m
             then convertToInches (parseDimensionWithUnit (.str (step.depth.getD ""))) else m)
          else m) m := by
      induction hF with
      | nil => intro m; rfl
      | @cons a b t₁ t₂ hab htail ih =>
        intro m
        simp only [List.foldl_cons]
        rw [hab.2.2.1]
        exact ih _
    rw [hfold]

/-- Witness: `C7_unused_fields` applied to the tap-size edit of
`C7_counterexample`'s specs. -/
theorem C7_unused_fields_witness :
    candidateHoles specTapPlain.machiningSteps = candidateHoles specTapWithSize.machiningSteps
    ∧ ∀ e l : Option String,
        getMaxDepth specTapPlain.machiningSteps e l
          = getMaxDepth specTapWithSize.machiningSteps e l :=
  C7_unused_fields specTapPlain.machiningSteps specTapWithSize.machiningSteps
    (List.Forall₂.cons ⟨rfl, rfl, rfl, rfl, rfl, rfl, Or.inl rfl⟩
      (List.Forall₂.cons ⟨rfl, rfl, rfl, rfl, rfl, rfl, Or.inr (by decide)⟩
        List.Forall₂.nil))

/-! ### C5: parser totality and degradation -/

/-- The ten decimal digit characters. -/
def digitChars : List Char := ['0', '1', '2', '3', '4', '5', '6', '7', '8', '9']

theorem digitChar_facts : ∀ c ∈ digitChars,
    Char.isDigit c = true ∧ isJsWS c = false ∧ lowerChar c = c
      ∧ c ≠ '/' ∧ c ≠ '-' ∧ c ≠ '+' ∧ c ≠ 'm' ∧ c ≠ 'c' := by decide

theorem dropWhile_eq_self_of_head_false {p : Char → Bool} {l : List Char}
    (h : ∀ c ∈ l, p c = false) : l.dropWhile p = l := by
  cases l with
  | nil => rfl
  | cons x xs => simp [List.dropWhile, h x (List.mem_cons_self x xs)]

theorem takeWhile_eq_self_of_all {p : Char → Bool} :
    ∀ {l : List Char}, (∀ c ∈ l, p c = true) → l.takeWhile p = l := by
  intro l
  induction l with
  | nil => intro _; rfl
  | cons x xs ih =>
    intro h
    simp [List.takeWhile, h x (List.mem_cons_self x xs),
      ih (fun c hc => h c (List.mem_cons_of_mem x hc))]

theorem dropWhile_eq_nil_of_all {p : Char → Bool} :
    ∀ {l : List Char}, (∀ c ∈ l, p c = true) → l.dropWhile p = [] := by
  intro l
  induction l with
  | nil => intro _; rfl
  | cons x xs ih =>
    intro h
    simp [List.dropWhile, h x (List.mem_cons_self x xs),
      ih (fun c hc => h c (List.mem_cons_of_mem x hc))]

theorem jsTrim_eq_self {l : List Char} (h : ∀ c ∈ l, isJsWS c = false) :
    jsTrim l = l := by
  unfold jsTrim
  rw [dropWhile_eq_self_of_head_false h,
    dropWhile_eq_self_of_head_false (fun c hc => h c (List.mem_reverse.mp hc)),
    List.reverse_reverse]

theorem jsNumber_digits {l : List Char} (hne : l ≠ [])
    (h : ∀ c ∈ l, c ∈ digitChars) : jsNumber l = some (digitsToNat l) := by
  have hws : ∀ c ∈ l, isJsWS c = false :=
    fun c hc => (digitChar_facts c (h c hc)).2.1
  have hdig : ∀ c ∈ l, Char.isDigit c = true :=
    fun c hc => (digitChar_facts c (h c hc)).1
  unfold jsNumber
  rw [jsTrim_eq_self hws]
  cases l with
  | nil => exact absurd rfl hne
  | cons x xs =>
    have hx := digitChar_facts x (h x (List.mem_cons_self x xs))
    have hsign : splitSign (x :: xs) = (1, x :: xs) := by
      unfold splitSign
      simp [hx.2.2.2.2.1, hx.2.2.2.2.2.1]
    have htake : (x :: xs).takeWhile Char.isDigit = x :: xs :=
      takeWhile_eq_self_of_all hdig
    have hdrop : (x :: xs).dropWhile Char.isDigit = [] :=
      dropWhile_eq_nil_of_all hdig
    have hdec : parseDecimal (x :: xs) = some ((digitsToNat (x :: xs) : ℚ), []) := by
      unfold parseDecimal
      rw [htake, hdrop]
      simp
    simp only [hsign, hdec, List.isEmpty_cons]
    simp [parseExp, pow10]

theorem splitOnChar_not_mem {sep : Char} :
    ∀ {l : List Char}, sep ∉ l → splitOnChar sep l = [l] := by
  intro l
  induction l with
  | nil => intro _; rfl
  | cons x xs ih =>
    intro h
    have hx : ¬ x = sep := fun he => h (he ▸ List.mem_cons_self x xs)
    have hxs : sep ∉ xs := fun hm => h (List.mem_cons_of_mem x hm)
    simp [splitOnChar, hx, ih hxs]

theorem splitOnChar_append {sep : Char} {b : List Char} :
    ∀ {a : List Char}, sep ∉ a →
      splitOnChar sep (a ++ sep :: b) = a :: splitOnChar sep b := by
  intro a
  induction a with
  | nil => intro _; simp [splitOnChar]
  | cons x xs ih =>
    intro h
    have hx : ¬ x = sep := fun he => h (he ▸ List.mem_cons_self x xs)
    have hxs : sep ∉ xs := fun hm => h (List.mem_cons_of_mem x hm)
    have := ih hxs
    simp [splitOnChar, hx, this]

theorem not_slash_of_digits {l : List Char} (h : ∀ c ∈ l, c ∈ digitChars) :
    '/' ∉ l := by
  intro hm
  exact absurd rfl (digitChar_facts '/' (h '/' hm)).2.2.2.1

theorem parseValueChars_fraction {a b : List Char} (hane : a ≠ []) (hbne : b ≠ [])
    (ha : ∀ c ∈ a, c ∈ digitChars) (hb : ∀ c ∈ b, c ∈ digitChars)
    (hbz : digitsToNat b ≠ 0) :
    parseValueChars (a ++ '/' :: b) = (digitsToNat a : ℚ) / (digitsToNat b : ℚ) := by
  have hcont : (a ++ '/' :: b).contains '/' = true :=
    List.elem_eq_true_of_mem (by simp)
  have hsplit : splitOnChar '/' (a ++ '/' :: b) = a :: splitOnChar '/' b :=
    splitOnChar_append (not_slash_of_digits ha)
  have hsb : splitOnChar '/' b = [b] := splitOnChar_not_mem (not_slash_of_digits hb)
  have hcast : (digitsToNat b : ℚ) ≠ 0 := Nat.cast_ne_zero.mpr hbz
  unfold parseValueChars
  rw [hcont]
  simp only [if_true, hsplit, hsb]
  simp only [jsNumber_digits hane ha, jsNumber_digits hbne hb]
  simp [hcast]

theorem no_m_c_of_digit_slash {l : List Char} (h : ∀ c ∈ l, c ∈ digitChars ∨ c = '/') :
    (∀ c ∈ l, c ≠ 'm') ∧ (∀ c ∈ l, c ≠ 'c') ∧ (∀ c ∈ l, isJsWS c = false) := by
  refine ⟨fun c hc => ?_, fun c hc => ?_, fun c hc => ?_⟩ <;>
    rcases h c hc with hd | hs
  · exact (digitChar_facts c hd).2.2.2.2.2.2.1
  · subst hs; decide
  · exact (digitChar_facts c hd).2.2.2.2.2.2.2
  · subst hs; decide
  · exact (digitChar_facts c hd).2.1
  · subst hs; decide

theorem hasSub2_false_of_no_first {a b' : Char} :
    ∀ {l : List Char}, (∀ c ∈ l, c ≠ a) → hasSub2 a b' l = false := by
  intro l
  induction l with
  | nil => intro _; rfl
  | cons x xs ih =>
    intro h
    cases xs with
    | nil => rfl
    | cons y ys =>
      have hx : ¬ (x = a) := h x (List.mem_cons_self _ _)
      simp only [hasSub2]
      rw [ih (fun c hc => h c (List.mem_cons_of_mem x hc))]
      simp [hx]

theorem lowerChar_map_eq_self :
    ∀ {l : List Char}, (∀ c ∈ l, c ∈ digitChars ∨ c = '/') → jsToLower l = l := by
  intro l
  induction l with
  | nil => intro _; rfl
  | cons x xs ih =>
    intro h
    have hx : lowerChar x = x := by
      rcases h x (List.mem_cons_self x xs) with hd | hs
      · exact (digitChar_facts x hd).2.2.1
      · subst hs; decide
    have := ih (fun c hc => h c (List.mem_cons_of_mem x hc))
    unfold jsToLower at this ⊢
    rw [List.map_cons, hx, this]

/-- C5 counterexample: the claim says a fraction `"a/b"` with `b = 0` parses
to `0`, but `parseValue("3/0")` falls through to `parseFloat("3/0") = 3`. -/
theorem C5_counterexample :
    parseValue (.str "3/0") = 3 ∧ (3 : ℚ) ≠ 0 := by
  constructor
  · decide
  · decide

/-- C5 (amended): the dimension parser is a total function that never
raises; an all-digit fraction string `"a/b"` with `b ≠ 0` parses (also
through `parseDimensionWithUnit`) to exactly `a / b`; when `b = 0` (or the
fraction halves fail `Number`) the value falls back to `parseFloat` of the
whole string — e.g. `"3/0" ↦ 3` — and only when that also fails does it
degrade to `0`, as for `""`, `"abc"` and absent input. -/
theorem C5_parser_degradation :
    (∀ a b : List Char, a ≠ [] → b ≠ [] →
      (∀ c ∈ a, c ∈ digitChars) → (∀ c ∈ b, c ∈ digitChars) → digitsToNat b ≠ 0 →
      parseValue (.str (String.mk (a ++ '/' :: b)))
          = (digitsToNat a : ℚ) / (digitsToNat b : ℚ)
        ∧ (parseDimensionWithUnit (.str (String.mk (a ++ '/' :: b)))).value
          = (digitsToNat a : ℚ) / (digitsToNat b : ℚ)
        ∧ (parseDimensionWithUnit (.str (String.mk (a ++ '/' :: b)))).unit = .inches)
    ∧ parseValue (.str "3/0") = parseFloatOrZero "3/0".data
    ∧ parseValue (.str "3/0") = 3
    ∧ parseValue (.str "") = 0
    ∧ parseValue (.str "abc") = 0
    ∧ parseValue .undef = 0 := by
  refine ⟨?_, by decide, by decide, by decide, by decide, by decide⟩
  intro a b hane hbne ha hb hbz
  have hmix : ∀ c ∈ a ++ '/' :: b, c ∈ digitChars ∨ c = '/' := by
    intro c hc
    rcases List.mem_append.mp hc with h | h
    · exact Or.inl (ha c h)
    · rcases List.mem_cons.mp h with h | h
      · exact Or.inr h
      · exact Or.inl (hb c h)
  obtain ⟨hnm, hnc, hnws⟩ := no_m_c_of_digit_slash hmix
  have hfrac := parseValueChars_fraction hane hbne ha hb hbz
  have hdim : parseDimensionWithUnit (.str (String.mk (a ++ '/' :: b)))
      = ⟨parseValueChars (a ++ '/' :: b), .inches, a ++ '/' :: b⟩ := by
    simp only [parseDimensionWithUnit]
    rw [jsTrim_eq_self hnws, lowerChar_map_eq_self hmix,
      hasSub2_false_of_no_first hnm, hasSub2_false_of_no_first hnc]
    simp
  exact ⟨hfrac, by rw [hdim]; exact hfrac, by rw [hdim]⟩

/-- Witness: the fraction clause applied to `"1/4"`. -/
theorem C5_parser_degradation_witness :
    parseValue (.str (String.mk (['1'] ++ '/' :: ['4'])))
      = (digitsToNat ['1'] : ℚ) / (digitsToNat ['4'] : ℚ) :=
  (C5_parser_degradation.1 ['1'] ['4'] (by decide) (by decide) (by decide) (by decide)
    (by decide)).1

/-! ### C3: thread region resolution -/

theorem foldr_max_init {α : Type} (d : α → ℚ) (a : ℚ) :
    ∀ (l : List α) (s : ℚ),
      l.foldr (fun op m => max (d op) m) (max a s)
        = max a (l.foldr (fun op m => max (d op) m) s) := by
  intro l
  induction l with
  | nil => intro s; rfl
  | cons x t ih =>
    intro s
    simp only [List.foldr_cons, ih]
    exact max_left_comm _ _ _

theorem foldl_max_filter {α : Type} (cond : α → Bool) (d : α → ℚ) :
    ∀ (l : List α) (s : ℚ),
      l.foldl (fun s op => if cond op then max s (d op) else s) s
        = (l.filter cond).foldr (fun op m => max (d op) m) s := by
  intro l
  induction l with
  | nil => intro s; rfl
  | cons x t ih =>
    intro s
    by_cases hc : cond x
    · simp only [List.foldl_cons, List.filter_cons, hc, if_true, List.foldr_cons]
      rw [ih (max s (d x)), max_comm s (d x), foldr_max_init]
    · simp [List.foldl_cons, List.filter_cons, hc, ih]

/-- The three-step spec of the thread-removal example: a 0.25 in by 0.5 in
drill, the tap, then a larger 0.5 in by 0.2 in drill. -/
def threadExampleSteps : List MachiningStep :=
  [drillSmallDeep,
   { process := .tap, threadSize := some "5/16-18" },
   { process := .drill, size := some "0.5", depth := some "0.2" }]

/-- C3: the resolved thread region of the tap at `tapIdx` runs from the
largest depth of any later, strictly larger Drill/Bore (starting from the
surface `0`) down to the target hole's depth, independently per tap; an
empty region resolves to `none` and then the renderer emits no thread marks
for that tap; the `0.25 in deep-tap then 0.5 in drill to 0.2 in` example
resolves to `[0.2, 0.5]`. -/
theorem C3_thread_region :
    (∀ (steps : List MachiningStep) (tapIdx : ℕ) (target : MachiningStep),
      (priorDrillOps steps tapIdx).head? = some target →
      resolveThreadRegion steps tapIdx =
        (let endD := parseValue (.str (orZero target.depth))
         let startD := ((laterCutOps steps tapIdx).filter
             (fun op => decide (parseValue (.str (orZero target.size))
               < parseValue (.str (orZero op.size))))).foldr
             (fun op m => max (parseValue (.str (orZero op.depth))) m) 0
         if startD < endD then some (startD, endD) else none))
    ∧ (∀ (steps : List MachiningStep) (L : Layout) (isModal : Bool) (tapIdx : ℕ),
        resolveThreadRegion steps tapIdx = none →
        threadPrimsForTap steps L isModal tapIdx = [])
    ∧ resolveThreadRegion threadExampleSteps 1 = some (1/5, 1/2) := by
  refine ⟨?_, ?_, by decide⟩
  · intro steps tapIdx target htarget
    unfold resolveThreadRegion
    rw [htarget]
    have hfold := foldl_max_filter
      (fun op => decide (parseValue (.str (orZero target.size))
        < parseValue (.str (orZero op.size))))
      (fun op => parseValue (.str (orZero op.depth)))
      (laterCutOps steps tapIdx) 0
    simp only [gt_iff_lt, decide_eq_true_eq] at hfold ⊢
    rw [hfold]
    rcases lt_or_le
        (((laterCutOps steps tapIdx).filter
          (fun op => decide (parseValue (.str (orZero target.size))
            < parseValue (.str (orZero op.size))))).foldr
          (fun op m => max (parseValue (.str (orZero op.depth))) m) 0)
        (parseValue (.str (orZero target.depth))) with hlt | hge
    · rw [if_neg (not_le.mpr hlt), if_pos hlt]
    · rw [if_pos hge, if_neg (not_lt.mpr hge)]
  · intro steps L isModal tapIdx h
    unfold threadPrimsForTap
    cases hh : (priorDrillOps steps tapIdx).head? with
    | none => rfl
    | some target =>
      rw [h]

/-- Witness: the characterisation applied to the example tap, whose target
hole is the first drill. -/
theorem C3_thread_region_witness :
    (priorDrillOps threadExampleSteps 1).head? = some drillSmallDeep
    ∧ resolveThreadRegion threadExampleSteps 1 = some (1/5, 1/2) := by
  refine ⟨by decide, ?_⟩
  rw [C3_thread_region.1 threadExampleSteps 1 drillSmallDeep (by decide)]
  decide

/-! ### C8: shoulder guard -/

theorem shoulder_empty_of_guard (spec : ComponentSpec) (L : Layout)
    (profile : List CrossSectionSegment) (i : ℕ) (seg : CrossSectionSegment)
    (h : (qualifyingDrills spec.machiningSteps).length ≤ 1) :
    shoulderPrimsAt spec L profile i seg = [] := by
  unfold shoulderPrimsAt
  rw [if_pos h]

/-- The per-segment drawing without any shoulder contribution. -/
def plainSegmentPrims (L : Layout) (profile : List CrossSectionSegment) : List Prim :=
  profile.enum.flatMap (fun p =>
    let seg := p.2
    let segStartX := L.rightX - seg.startDepth * L.scale
    let segEndX := L.rightX - seg.endDepth * L.scale
    let innerR := seg.radius * L.scale
    let oR := (if seg.outerRadius = 0 then L.maxDiameter / 2 else seg.outerRadius) * L.scale
    [solidLine segStartX (L.adjustedCenterY - oR) segEndX (L.adjustedCenterY - oR) L.strokeWidth,
     solidLine segStartX (L.adjustedCenterY + oR) segEndX (L.adjustedCenterY + oR) L.strokeWidth]
      ++ (if seg.type = .hole then
            [solidLine segStartX (L.adjustedCenterY - innerR)
               segEndX (L.adjustedCenterY - innerR) L.strokeWidth,
             solidLine segStartX (L.adjustedCenterY + innerR)
               segEndX (L.adjustedCenterY + innerR) L.strokeWidth]
          else []))

/-- C8: shoulder lines obey the multiple-drill guard — with at most one
qualifying drill operation every shoulder contribution is empty and the
profile group degenerates to envelope and bore lines only; and a non-empty
shoulder contribution forces more than one qualifying drill and an adjacent
hole segment of different radius. -/
theorem C8_shoulder_guard :
    (∀ (spec : ComponentSpec) (L : Layout) (profile : List CrossSectionSegment)
        (i : ℕ) (seg : CrossSectionSegment),
      (qualifyingDrills spec.machiningSteps).length ≤ 1 →
      shoulderPrimsAt spec L profile i seg = [])
    ∧ (∀ (spec : ComponentSpec) (L : Layout) (profile : List CrossSectionSegment),
        (qualifyingDrills spec.machiningSteps).length ≤ 1 →
        segmentPrims spec L profile = plainSegmentPrims L profile)
    ∧ (∀ (spec : ComponentSpec) (L : Layout) (profile : List CrossSectionSegment)
        (i : ℕ) (seg : CrossSectionSegment),
        shoulderPrimsAt spec L profile i seg ≠ [] →
        1 < (qualifyingDrills spec.machiningSteps).length
        ∧ ((∃ prev, profile.get? (i - 1) = some prev
              ∧ prev.type = .hole ∧ prev.radius ≠ seg.radius)
           ∨ (∃ next, profile.get? (i + 1) = some next
              ∧ next.type = .hole ∧ next.radius ≠ seg.radius))) := by
  refine ⟨shoulder_empty_of_guard, ?_, ?_⟩
  · intro spec L profile h
    unfold segmentPrims plainSegmentPrims
    apply List.flatMap_congr
    intro p _
    simp only [shoulder_empty_of_guard spec L profile p.1 p.2 h, List.append_nil]
  · intro spec L profile i seg h
    unfold shoulderPrimsAt at h
    by_cases hg : (qualifyingDrills spec.machiningSteps).length ≤ 1
    · rw [if_pos hg] at h
      exact absurd rfl h
    · rw [if_neg hg] at h
      refine ⟨lt_of_not_le hg, ?_⟩
      rw [Ne, List.append_eq_nil, not_and_or] at h
      rcases h with hs | hs
      · left
        unfold startShoulderPrims at hs
        by_cases hi : 0 < i
        · rw [if_pos hi] at hs
          cases hprev : profile.get? (i - 1) with
          | none => rw [hprev] at hs; exact absurd rfl hs
          | some prev =>
            rw [hprev] at hs
            by_cases hc : prev.type = .hole ∧ prev.radius ≠ seg.radius
            · exact ⟨prev, rfl, hc.1, hc.2⟩
            · simp only [hc, if_false] at hs
              exact absurd trivial hs
        · rw [if_neg hi] at hs; exact absurd rfl hs
      · right
        unfold endShoulderPrims at hs
        by_cases hi : i < profile.length - 1
        · rw [if_pos hi] at hs
          cases hnext : profile.get? (i + 1) with
          | none => rw [hnext] at hs; exact absurd rfl hs
          | some next =>
            rw [hnext] at hs
            by_cases hc : next.type = .hole ∧ next.radius ≠ seg.radius
            · exact ⟨next, rfl, hc.1, hc.2⟩
            · simp only [hc, if_false] at hs
              exact absurd trivial hs
        · rw [if_neg hi] at hs; exact absurd rfl hs

/-- Witness: the guard applied to the single-drill spec, whose drill count
is one, for the first profile segment. -/
theorem C8_shoulder_guard_witness :
    (qualifyingDrills oneDrillSpec.machiningSteps).length ≤ 1
    ∧ shoulderPrimsAt oneDrillSpec (layoutOf oneDrillSpec false)
        (generateCrossSectionProfile oneDrillSpec) 0 ⟨0, 1, 1/2, .hole, 5/8, some 1⟩ = [] :=
  ⟨by decide,
   C8_shoulder_guard.1 oneDrillSpec (layoutOf oneDrillSpec false)
     (generateCrossSectionProfile oneDrillSpec) 0 ⟨0, 1, 1/2, .hole, 5/8, some 1⟩
     (by decide)⟩

/-! ### C10: exposed portion at a fixed 0.25 in diameter -/

/-- C10: whenever `exposedLength` is truthy, the exposed-portion group is
drawn with a half-height of `scale / 8` — a hard-coded 0.25 in diameter
independent of the spec's `diameter` field and machined diameters — while
only its horizontal extent `exposedInches * scale` depends on the input,
extending rightward from the zero reference `rightX` (for a non-negative
parsed length). -/
theorem C10_exposed_fixed_diameter :
    ∀ (spec : ComponentSpec) (isModal : Bool), truthy spec.exposedLength = true →
      (exposedPrims spec (layoutOf spec isModal) isModal =
        (let L := layoutOf spec isModal
         let dim := parseDimensionWithUnit (.str (spec.exposedLength.getD ""))
         let eX := L.rightX + convertToInches dim * L.scale
         let rPx := L.scale / 8
         [.line L.rightX (L.adjustedCenterY - rPx) eX (L.adjustedCenterY - rPx)
            ⟨gray, L.strokeWidth, some (if isModal then "4,4" else "2,2")⟩,
          .line L.rightX (L.adjustedCenterY + rPx) eX (L.adjustedCenterY + rPx)
            ⟨gray, L.strokeWidth, some (if isModal then "4,4" else "2,2")⟩,
          .line eX (L.adjustedCenterY - rPx) eX (L.adjustedCenterY + rPx)
            ⟨gray, L.strokeWidth, some (if isModal then "4,4" else "2,2")⟩,
          .line L.rightX (L.adjustedCenterY + rPx + (if isModal then 15 else 8))
            eX (L.adjustedCenterY + rPx + (if isModal then 15 else 8))
            ⟨purple, if isModal then 2 else 4/5, none⟩,
          .line L.rightX (L.adjustedCenterY + rPx)
            L.rightX (L.adjustedCenterY + rPx + (if isModal then 20 else 12))
            ⟨purple, (if isModal then 1 else 1/2), some (if isModal then "3,3" else "2,2")⟩,
          .line eX (L.adjustedCenterY + rPx)
            eX (L.adjustedCenterY + rPx + (if isModal then 20 else 12))
            ⟨purple, (if isModal then 1 else 1/2), some (if isModal then "3,3" else "2,2")⟩,
          .text ((L.rightX + eX) / 2) (L.adjustedCenterY + rPx + (if isModal then 35 else 20))
            (if isModal then 14 else 6) purple
            ((if isModal then formatDimension dim else spec.exposedLength.getD "")
              ++ " exposed")]))
      ∧ (0 ≤ convertToInches (parseDimensionWithUnit (.str (spec.exposedLength.getD ""))) →
          (layoutOf spec isModal).rightX
            ≤ (layoutOf spec isModal).rightX
              + convertToInches (parseDimensionWithUnit (.str (spec.exposedLength.getD "")))
                * (layoutOf spec isModal).scale) := by
  intro spec isModal h
  constructor
  · unfold exposedPrims
    rw [h]
    have hr : ((0.25 : ℚ) / 2) * (layoutOf spec isModal).scale
        = (layoutOf spec isModal).scale / 8 := by
      norm_num
      ring
    simp only [if_true, hr]
  · intro h0
    have hsc : (0 : ℚ) ≤ (layoutOf spec isModal).scale := by
      unfold layoutOf
      by_cases hm : isModal <;> simp [hm]
    nlinarith

/-- Witness: the exposed-portion characterisation at a concrete pin spec
with a `0.5` exposed length in thumbnail mode. -/
theorem C10_exposed_fixed_diameter_witness :
    truthy ({ exposedLength := some "0.5" } : ComponentSpec).exposedLength = true
    ∧ (0 : ℚ) ≤ convertToInches (parseDimensionWithUnit
        (.str (({ exposedLength := some "0.5" } : ComponentSpec).exposedLength.getD "")))
    ∧ (layoutOf { exposedLength := some "0.5" } false).rightX
        ≤ (layoutOf { exposedLength := some "0.5" } false).rightX
          + convertToInches (parseDimensionWithUnit
              (.str (({ exposedLength := some "0.5" } : ComponentSpec).exposedLength.getD "")))
            * (layoutOf { exposedLength := some "0.5" } false).scale :=
  ⟨by decide, by decide,
   (C10_exposed_fixed_diameter { exposedLength := some "0.5" } false (by decide)).2
     (by decide)⟩

/-! ### Structural lemmas about the profile builder -/

theorem mkSegment_startDepth (ops : List HoleOp) (outerR a b : ℚ) :
    (mkSegment ops outerR a b).startDepth = a := by
  unfold mkSegment
  split <;> rfl

theorem mkSegment_endDepth (ops : List HoleOp) (outerR a b : ℚ) :
    (mkSegment ops outerR a b).endDepth = b := by
  unfold mkSegment
  split <;> rfl

theorem segmentsOf_mem {ops : List HoleOp} {outerR : ℚ} :
    ∀ {l : List ℚ} {seg : CrossSectionSegment}, seg ∈ segmentsOf ops outerR l →
      ∃ a b, seg = mkSegment ops outerR a b := by
  intro l
  induction l with
  | nil => intro seg h; simp [segmentsOf] at h
  | cons x xs ih =>
    intro seg h
    cases xs with
    | nil => simp [segmentsOf] at h
    | cons y ys =>
      rcases List.mem_cons.mp h with he | hm
      · exact ⟨x, y, he⟩
      · exact ih hm

theorem segmentsOf_chain (ops : List HoleOp) (outerR : ℚ) :
    ∀ l : List ℚ,
      List.Chain' (fun s t => s.endDepth = t.startDepth) (segmentsOf ops outerR l) := by
  intro l
  induction l with
  | nil => exact List.chain'_nil
  | cons x xs ih =>
    cases xs with
    | nil => exact List.chain'_nil
    | cons y ys =>
      cases ys with
      | nil => exact List.chain'_singleton _
      | cons z zs =>
        exact List.chain'_cons.mpr
          ⟨by rw [mkSegment_endDepth, mkSegment_startDepth], ih⟩

theorem segmentsOf_start_le_end {ops : List HoleOp} {outerR : ℚ} :
    ∀ {l : List ℚ}, l.Sorted (· ≤ ·) →
      ∀ seg ∈ segmentsOf ops outerR l, seg.startDepth ≤ seg.endDepth := by
  intro l
  induction l with
  | nil => intro _ seg h; simp [segmentsOf] at h
  | cons x xs ih =>
    intro hs seg h
    cases xs with
    | nil => simp [segmentsOf] at h
    | cons y ys =>
      rcases List.mem_cons.mp h with he | hm
      · subst he
        rw [mkSegment_startDepth, mkSegment_endDepth]
        exact (List.sorted_cons.mp hs).1 y (List.mem_cons_self _ _)
      · exact ih hs.of_cons seg hm

theorem segmentsOf_getLast? (ops : List HoleOp) (outerR : ℚ) :
    ∀ (rest : List ℚ) (a b : ℚ),
      (segmentsOf ops outerR (a :: b :: rest)).getLast?.map CrossSectionSegment.endDepth
        = (b :: rest).getLast? := by
  intro rest
  induction rest with
  | nil =>
    intro a b
    simp [segmentsOf, mkSegment_endDepth]
  | cons c cs ih =>
    intro a b
    rw [show segmentsOf ops outerR (a :: b :: c :: cs)
        = mkSegment ops outerR a b :: segmentsOf ops outerR (b :: c :: cs) from rfl]
    rw [show segmentsOf ops outerR (b :: c :: cs)
        = mkSegment ops outerR b c :: segmentsOf ops outerR (c :: cs) from rfl]
    rw [List.getLast?_cons_cons]
    rw [show mkSegment ops outerR b c :: segmentsOf ops outerR (c :: cs)
        = segmentsOf ops outerR (b :: c :: cs) from rfl]
    rw [ih b c, List.getLast?_cons_cons]

theorem sorted_head_min {l : List ℚ} (hs : l.Sorted (· ≤ ·)) {a : ℚ}
    (ha : l.head? = some a) : ∀ x ∈ l, a ≤ x := by
  cases l with
  | nil => cases ha
  | cons h t =>
    have : a = h := by
      simp only [List.head?_cons, Option.some.injEq] at ha
      exact ha.symm
    subst this
    intro x hx
    rcases List.mem_cons.mp hx with he | hm
    · exact he ▸ le_refl a
    · exact (List.sorted_cons.mp hs).1 x hm

theorem sorted_getLast_max :
    ∀ {l : List ℚ}, l.Sorted (· ≤ ·) → ∀ {a : ℚ}, l.getLast? = some a →
      ∀ x ∈ l, x ≤ a := by
  intro l
  induction l with
  | nil => intro _ a ha; cases ha
  | cons h t ih =>
    intro hs a ha x hx
    cases t with
    | nil =>
      have hax : a = h := by
        simp only [List.getLast?_singleton, Option.some.injEq] at ha
        exact ha.symm
      subst hax
      rcases List.mem_cons.mp hx with he | hm
      · exact he ▸ le_refl a
      · simp at hm
    | cons b u =>
      rw [List.getLast?_cons_cons] at ha
      rcases List.mem_cons.mp hx with he | hm
      · subst he
        exact le_trans ((List.sorted_cons.mp hs).1 a
          (List.mem_of_getLast?_eq_some ha)) (le_refl a)
      · exact ih hs.of_cons ha x hm

theorem truthy_of_parse_pos {o : Option String}
    (h : 0 < parseValue (.str (orZero o))) : truthy o = true := by
  cases o with
  | none =>
    have h0 : parseValue (.str (orZero (none : Option String))) = 0 := by decide
    rw [h0] at h
    exact absurd h (lt_irrefl 0)
  | some s =>
    by_cases he : s.isEmpty
    · have h0 : orZero (some s) = "0" := by simp [orZero, he]
      rw [h0] at h
      have h1 : parseValue (.str "0") = 0 := by decide
      rw [h1] at h
      exact absurd h (lt_irrefl 0)
    · simp [truthy, he]

theorem orZero_eq_getD {o : Option String} (h : truthy o = true) :
    orZero o = o.getD "" := by
  cases o with
  | none => simp [truthy] at h
  | some s =>
    have he : s.isEmpty = false := by
      by_cases hb : s.isEmpty
      · rw [truthy] at h; rw [hb] at h; simp at h
      · simp [hb]
    simp [orZero, he]

theorem stage_ge (m x : ℚ) (c : Bool) :
    m ≤ (if c = true then (if x > m then x else m) else m) := by
  by_cases hc : c = true
  · by_cases hx : x > m
    · rw [if_pos hc, if_pos hx]; exact le_of_lt hx
    · rw [if_pos hc, if_neg hx]
  · rw [if_neg hc]

theorem bumpIfLarger_ge (o : Option String) (m : ℚ) : m ≤ bumpIfLarger o m := by
  unfold bumpIfLarger
  exact stage_ge m _ (truthy o)

theorem getMaxDepth_stage1_le (steps : List MachiningStep)
    (e l : Option String) : maxDepthFold steps ≤ getMaxDepth steps e l := by
  unfold getMaxDepth
  exact le_trans (bumpIfLarger_ge _ _) (bumpIfLarger_ge _ _)

theorem getMaxDepth_nonneg (steps : List MachiningStep) (e l : Option String) :
    0 ≤ getMaxDepth steps e l :=
  le_trans (maxFold_le_init _ _ steps 0) (getMaxDepth_stage1_le steps e l)

theorem candidateHole_depth_le (spec : ComponentSpec) :
    ∀ h ∈ candidateHoles spec.machiningSteps, h.depth ≤ specMaxDepth spec := by
  intro h hm
  unfold candidateHoles at hm
  rcases List.mem_map.mp hm with ⟨step, hstep, hh⟩
  unfold qualifyingDrills at hstep
  have hmem := List.mem_of_mem_filter hstep
  have hq := List.of_mem_filter hstep
  unfold isQualifyingDrill at hq
  simp only [Bool.and_eq_true, decide_eq_true_eq] at hq
  have htr : truthy step.depth = true := truthy_of_parse_pos hq.1.2
  have hdep : h.depth
      = convertToInches (parseDimensionWithUnit (.str (step.depth.getD ""))) := by
    rw [← hh]
    unfold toHoleOp
    rw [orZero_eq_getD htr]
  rw [hdep]
  refine le_trans ?_ (getMaxDepth_stage1_le spec.machiningSteps spec.exposedLength spec.length)
  exact maxFold_ge_elem _ _ spec.machiningSteps 0 step hmem htr

theorem sortedHoles_eq_nil_iff {steps : List MachiningStep} :
    sortedHoles steps = [] ↔ candidateHoles steps = [] := by
  unfold sortedHoles
  constructor
  · intro h
    have hp := List.perm_insertionSort
      (fun a b : HoleOp => b.depth ≤ a.depth) (candidateHoles steps)
    rw [h] at hp
    exact hp.symm.eq_nil
  · intro h
    rw [h]
    rfl

theorem sortedHoles_perm (steps : List MachiningStep) :
    List.Perm (sortedHoles steps) (candidateHoles steps) :=
  List.perm_insertionSort _ _

theorem depthPoints_sorted (spec : ComponentSpec) :
    (depthPoints spec).Sorted (· ≤ ·) :=
  List.sorted_insertionSort _ _

theorem depthPoints_perm (spec : ComponentSpec) :
    List.Perm (depthPoints spec)
      (0 :: (sortedHoles spec.machiningSteps).map HoleOp.depth ++ [specMaxDepth spec]) :=
  List.perm_insertionSort _ _

theorem depthPoints_bounds (spec : ComponentSpec)
    (hnn : ∀ h ∈ candidateHoles spec.machiningSteps, 0 ≤ h.depth) :
    ∀ x ∈ depthPoints spec, 0 ≤ x ∧ x ≤ specMaxDepth spec := by
  intro x hx
  have hx' := (depthPoints_perm spec).mem_iff.mp hx
  have hmd0 : (0 : ℚ) ≤ specMaxDepth spec :=
    getMaxDepth_nonneg spec.machiningSteps spec.exposedLength spec.length
  rcases List.mem_cons.mp hx' with h0 | hrest
  · rw [h0]
    exact ⟨le_refl 0, hmd0⟩
  rcases List.mem_append.mp hrest with hds | hlast
  · rcases List.mem_map.mp hds with ⟨op, hop, hx⟩
    have hopc : op ∈ candidateHoles spec.machiningSteps :=
      (sortedHoles_perm spec.machiningSteps).mem_iff.mp hop
    exact ⟨hx ▸ hnn op hopc, hx ▸ candidateHole_depth_le spec op hopc⟩
  · rcases List.mem_singleton.mp hlast with h
    exact ⟨h ▸ hmd0, h ▸ le_refl _⟩

theorem depthPoints_mem_zero (spec : ComponentSpec) : (0 : ℚ) ∈ depthPoints spec :=
  (depthPoints_perm spec).mem_iff.mpr (List.mem_cons_self _ _)

theorem depthPoints_mem_maxDepth (spec : ComponentSpec) :
    specMaxDepth spec ∈ depthPoints spec :=
  (depthPoints_perm spec).mem_iff.mpr
    (List.mem_cons_of_mem _ (List.mem_append_right _ (List.mem_singleton_self _)))

theorem depthPoints_length (spec : ComponentSpec) :
    (depthPoints spec).length
      = (sortedHoles spec.machiningSteps).length + 2 := by
  have := (depthPoints_perm spec).length_eq
  simp only [List.length_cons, List.length_append, List.length_map,
    List.length_nil] at this
  omega

/-! ### C2: partition invariant -/

/-- C2 counterexample: the builder does *not* skip boundaries that collapse
to the same depth — a single 1 in by 1 in drill produces a trailing
zero-length segment `[1, 1)` because `maxDepth` coincides with the drill
depth. -/
theorem C2_counterexample :
    generateCrossSectionProfile oneDrillSpec =
      [⟨0, 1, 1/2, .hole, 5/8, some 1⟩, ⟨1, 1, 1/2, .hole, 5/8, some 1⟩]
    ∧ ∃ seg ∈ generateCrossSectionProfile oneDrillSpec,
        seg.startDepth = seg.endDepth := by
  constructor
  · decide
  · decide

/-- C2 (amended): for every spec whose candidate holes all have a
non-negative parsed depth (all ordinary inputs), the profile is a non-empty
contiguous, ordered tiling of `[0, maxDepth]`: the first segment starts at
`0`, the last ends at `maxDepth`, every segment's end equals the next
segment's start, and every segment has non-negative length — but zero-length
segments are not skipped and occur whenever two boundaries coincide
(`C2_counterexample`). -/
theorem C2_profile_partition :
    ∀ spec : ComponentSpec,
      (∀ h ∈ candidateHoles spec.machiningSteps, 0 ≤ h.depth) →
      generateCrossSectionProfile spec ≠ []
      ∧ (generateCrossSectionProfile spec).head?.map CrossSectionSegment.startDepth = some 0
      ∧ (generateCrossSectionProfile spec).getLast?.map CrossSectionSegment.endDepth
          = some (specMaxDepth spec)
      ∧ List.Chain' (fun s t => s.endDepth = t.startDepth) (generateCrossSectionProfile spec)
      ∧ ∀ seg ∈ generateCrossSectionProfile spec, seg.startDepth ≤ seg.endDepth := by
  intro spec hnn
  by_cases hemp : sortedHoles spec.machiningSteps = []
  · have hprof : generateCrossSectionProfile spec
        = [⟨0, specMaxDepth spec, getMaterialDiameter spec / 2, .solid,
            getMaterialDiameter spec / 2, none⟩] := by
      unfold generateCrossSectionProfile
      rw [hemp]
      rfl
    rw [hprof]
    refine ⟨by simp, by simp, by simp, List.chain'_singleton _, ?_⟩
    intro seg hseg
    rcases List.mem_singleton.mp hseg with h
    subst h
    exact getMaxDepth_nonneg spec.machiningSteps spec.exposedLength spec.length
  · have hlen : 2 ≤ (depthPoints spec).length := by
      rw [depthPoints_length]
      omega
    obtain ⟨a, b, rest, hdp⟩ : ∃ a b rest, depthPoints spec = a :: b :: rest := by
      rcases hdpe : depthPoints spec with _ | ⟨a, _ | ⟨b, rest⟩⟩
      · rw [hdpe] at hlen; simp at hlen
      · rw [hdpe] at hlen; simp at hlen
      · exact ⟨a, b, rest, rfl⟩
    have hprof : generateCrossSectionProfile spec
        = segmentsOf (sortedHoles spec.machiningSteps)
            (getMaterialDiameter spec / 2) (depthPoints spec) := by
      unfold generateCrossSectionProfile
      rcases hso : sortedHoles spec.machiningSteps with _ | ⟨h0, t0⟩
      · exact absurd hso hemp
      · rfl
    have hsorted := depthPoints_sorted spec
    have hbounds := depthPoints_bounds spec hnn
    -- the first boundary is 0
    have ha0 : a = 0 := by
      have hha : (depthPoints spec).head? = some a := by rw [hdp]; rfl
      have hmin := sorted_head_min hsorted hha
      have h1 : a ≤ 0 := hmin 0 (depthPoints_mem_zero spec)
      have h2 : 0 ≤ a := (hbounds a (by rw [hdp]; exact List.mem_cons_self _ _)).1
      exact le_antisymm h1 h2
    -- the last boundary is maxDepth
    have hlast : (depthPoints spec).getLast? = some (specMaxDepth spec) := by
      rcases hgl : (depthPoints spec).getLast? with _ | x
      · rw [hdp] at hgl
        simp [List.getLast?_cons_cons] at hgl
      · have hxmem := List.mem_of_getLast?_eq_some hgl
        have hmax := sorted_getLast_max hsorted hgl
        have h1 : specMaxDepth spec ≤ x := hmax _ (depthPoints_mem_maxDepth spec)
        have h2 : x ≤ specMaxDepth spec := (hbounds x hxmem).2
        rw [le_antisymm h2 h1]
    rw [hprof]
    refine ⟨?_, ?_, ?_, segmentsOf_chain _ _ _, segmentsOf_start_le_end hsorted⟩
    · rw [hdp]
      intro hfalse
      cases hfalse
    · rw [hdp]
      rw [show (segmentsOf (sortedHoles spec.machiningSteps)
          (getMaterialDiameter spec / 2) (a :: b :: rest)).head?
        = some (mkSegment (sortedHoles spec.machiningSteps)
            (getMaterialDiameter spec / 2) a b) from rfl]
      simp only [Option.map_some']
      rw [mkSegment_startDepth, ha0]
    · rw [hdp, segmentsOf_getLast? _ _ rest a b]
      rw [hdp, List.getLast?_cons_cons] at hlast
      exact hlast

/-- Witness: the partition invariant at the two-drill example spec. -/
theorem C2_profile_partition_witness :
    (∀ h ∈ candidateHoles twoDrillSpec.machiningSteps, 0 ≤ h.depth)
    ∧ generateCrossSectionProfile twoDrillSpec ≠ []
    ∧ (generateCrossSectionProfile twoDrillSpec).head?.map
        CrossSectionSegment.startDepth = some 0
    ∧ (generateCrossSectionProfile twoDrillSpec).getLast?.map
        CrossSectionSegment.endDepth = some (specMaxDepth twoDrillSpec)
    ∧ List.Chain' (fun s t => s.endDepth = t.startDepth)
        (generateCrossSectionProfile twoDrillSpec)
    ∧ ∀ seg ∈ generateCrossSectionProfile twoDrillSpec,
        seg.startDepth ≤ seg.endDepth :=
  ⟨by decide, C2_profile_partition twoDrillSpec (by decide)⟩

/-! ### C1: largest hole wins -/

theorem pickLargest_mem : ∀ (t : List HoleOp) (h : HoleOp), pickLargest h t ∈ h :: t := by
  intro t
  induction t with
  | nil => intro h; exact List.mem_singleton_self h
  | cons x xs ih =>
    intro h
    unfold pickLargest at ih ⊢
    rw [List.foldl_cons]
    by_cases hc : x.radius > h.radius
    · rw [if_pos hc]
      rcases List.mem_cons.mp (ih x) with he | hm
      · rw [he]
        exact List.mem_cons_of_mem h (List.mem_cons_self x xs)
      · exact List.mem_cons_of_mem h (List.mem_cons_of_mem x hm)
    · rw [if_neg hc]
      rcases List.mem_cons.mp (ih h) with he | hm
      · rw [he]
        exact List.mem_cons_self h (x :: xs)
      · exact List.mem_cons_of_mem h (List.mem_cons_of_mem x hm)

theorem pickLargest_ge :
    ∀ (t : List HoleOp) (h : HoleOp), ∀ x ∈ h :: t, x.radius ≤ (pickLargest h t).radius := by
  intro t
  induction t with
  | nil =>
    intro h x hx
    rcases List.mem_cons.mp hx with he | hm
    · rw [he]
      exact le_refl _
    · simp at hm
  | cons y ys ih =>
    intro h x hx
    unfold pickLargest at ih ⊢
    rw [List.foldl_cons]
    by_cases hc : y.radius > h.radius
    · rw [if_pos hc]
      rcases List.mem_cons.mp hx with he | hm
      · rw [he]
        exact le_trans (le_of_lt hc) (ih y y (List.mem_cons_self _ _))
      · rcases List.mem_cons.mp hm with he2 | hm2
        · rw [he2]
          exact ih y y (List.mem_cons_self _ _)
        · exact ih y x (List.mem_cons_of_mem y hm2)
    · rw [if_neg hc]
      rcases List.mem_cons.mp hx with he | hm
      · rw [he]
        exact ih h h (List.mem_cons_self _ _)
      · rcases List.mem_cons.mp hm with he2 | hm2
        · rw [he2]
          exact le_trans (le_of_not_lt hc) (ih h h (List.mem_cons_self _ _))
        · exact ih h x (List.mem_cons_of_mem h hm2)

/-- C1: every produced segment is resolved against the candidate holes that
reach its end depth — solid at the stock radius when there are none,
otherwise a hole at the largest candidate radius; and on the two-drill
example the segment `[0, 0.25)` gets radius `0.25` while `[0.25, 0.5)` gets
radius `0.125`. -/
theorem C1_largest_hole_wins :
    (∀ spec : ComponentSpec, ∀ seg ∈ generateCrossSectionProfile spec,
      ((candidateHoles spec.machiningSteps).filter
          (fun op => decide (seg.endDepth ≤ op.depth)) = [] →
        seg.type = .solid ∧ seg.radius = getMaterialDiameter spec / 2)
      ∧ ((candidateHoles spec.machiningSteps).filter
          (fun op => decide (seg.endDepth ≤ op.depth)) ≠ [] →
        seg.type = .hole
        ∧ seg.radius ∈ ((candidateHoles spec.machiningSteps).filter
            (fun op => decide (seg.endDepth ≤ op.depth))).map HoleOp.radius
        ∧ ∀ r ∈ ((candidateHoles spec.machiningSteps).filter
            (fun op => decide (seg.endDepth ≤ op.depth))).map HoleOp.radius,
            r ≤ seg.radius))
    ∧ (generateCrossSectionProfile twoDrillSpec).get? 0
        = some ⟨0, 1/4, 1/4, .hole, 5/16, some (1/2)⟩
    ∧ (generateCrossSectionProfile twoDrillSpec).get? 1
        = some ⟨1/4, 1/2, 1/8, .hole, 5/16, some (1/4)⟩ := by
  refine ⟨?_, by decide, by decide⟩
  intro spec seg hseg
  by_cases hemp : sortedHoles spec.machiningSteps = []
  · have hcand : candidateHoles spec.machiningSteps = [] :=
      sortedHoles_eq_nil_iff.mp hemp
    have hprof : generateCrossSectionProfile spec
        = [⟨0, specMaxDepth spec, getMaterialDiameter spec / 2, .solid,
            getMaterialDiameter spec / 2, none⟩] := by
      unfold generateCrossSectionProfile
      rw [hemp]
      rfl
    rw [hprof] at hseg
    rcases List.mem_singleton.mp hseg with h
    subst h
    rw [hcand]
    exact ⟨fun _ => ⟨rfl, rfl⟩, fun hne => absurd rfl hne⟩
  · have hprof : generateCrossSectionProfile spec
        = segmentsOf (sortedHoles spec.machiningSteps)
            (getMaterialDiameter spec / 2) (depthPoints spec) := by
      unfold generateCrossSectionProfile
      rcases hso : sortedHoles spec.machiningSteps with _ | ⟨h0, t0⟩
      · exact absurd hso hemp
      · rfl
    rw [hprof] at hseg
    obtain ⟨a, b, hab⟩ := segmentsOf_mem hseg
    have hperm : List.Perm
        ((sortedHoles spec.machiningSteps).filter
          (fun op => decide (b ≤ op.depth)))
        ((candidateHoles spec.machiningSteps).filter
          (fun op => decide (b ≤ op.depth))) :=
      (sortedHoles_perm spec.machiningSteps).filter _
    have hend : seg.endDepth = b := by rw [hab, mkSegment_endDepth]
    simp only [hend]
    rcases hf : (sortedHoles spec.machiningSteps).filter
        (fun op => decide (b ≤ op.depth)) with _ | ⟨h0, t0⟩
    · rw [hf] at hperm
      have hcf : (candidateHoles spec.machiningSteps).filter
          (fun op => decide (b ≤ op.depth)) = [] := hperm.symm.eq_nil
      have hmk : mkSegment (sortedHoles spec.machiningSteps)
          (getMaterialDiameter spec / 2) a b
          = ⟨a, b, getMaterialDiameter spec / 2, .solid,
              getMaterialDiameter spec / 2, none⟩ := by
        unfold mkSegment
        rw [hf]
      refine ⟨fun _ => ?_, fun hne => absurd hcf hne⟩
      rw [hab, hmk]
      exact ⟨rfl, rfl⟩
    · rw [hf] at hperm
      have hmk : mkSegment (sortedHoles spec.machiningSteps)
          (getMaterialDiameter spec / 2) a b
          = ⟨a, b, (pickLargest h0 t0).radius, .hole,
              getMaterialDiameter spec / 2, some ((pickLargest h0 t0).radius * 2)⟩ := by
        unfold mkSegment
        rw [hf]
      refine ⟨fun hceq => ?_, fun _ => ?_⟩
      · rw [hceq] at hperm
        have := hperm.length_eq
        simp at this
      · refine ⟨by rw [hab, hmk], ?_, ?_⟩
        · rw [hab, hmk]
          exact List.mem_map.mpr
            ⟨pickLargest h0 t0, hperm.mem_iff.mp (pickLargest_mem t0 h0), rfl⟩
        · intro r hr
          rw [hab, hmk]
          rcases List.mem_map.mp hr with ⟨op, hop, hopr⟩
          rw [← hopr]
          exact pickLargest_ge t0 h0 op (hperm.mem_iff.mpr hop)

/-- Witness: the largest-hole-wins characterisation applied to the first
segment of the two-drill example. -/
theorem C1_largest_hole_wins_witness :
    (⟨0, 1/4, 1/4, .hole, 5/16, some (1/2)⟩ : CrossSectionSegment)
      ∈ generateCrossSectionProfile twoDrillSpec
    ∧ ((candidateHoles twoDrillSpec.machiningSteps).filter
        (fun op => decide ((1/4 : ℚ) ≤ op.depth)) ≠ [] →
      (⟨0, 1/4, 1/4, .hole, 5/16, some (1/2)⟩ : CrossSectionSegment).type = .hole
      ∧ (1/4 : ℚ) ∈ ((candidateHoles twoDrillSpec.machiningSteps).filter
          (fun op => decide ((1/4 : ℚ) ≤ op.depth))).map HoleOp.radius
      ∧ ∀ r ∈ ((candidateHoles twoDrillSpec.machiningSteps).filter
          (fun op => decide ((1/4 : ℚ) ≤ op.depth))).map HoleOp.radius,
          r ≤ (1/4 : ℚ)) :=
  ⟨by decide,
   (C1_largest_hole_wins.1 twoDrillSpec ⟨0, 1/4, 1/4, .hole, 5/16, some (1/2)⟩
     (by decide)).2⟩

end PoolCue
